import Mathlib

/-!
# Verification of the chat-clm compression-based language model

Shallow embedding of the core of the `chat-clm` repository (Rust) and
proofs about it.  Conventions used throughout:

* A token code (`Vec<u8>` in the source) is a `List Nat` of byte values.
* A text fragment (`String`) is a `List Char`.
* Rust `HashMap`s are modelled as association lists; iteration-order
  dependent behaviour is noted where it matters.  `HashMap::insert` is
  `alInsert` (replace in place, append at the end when absent),
  `Entry::or_insert` is `alInsertIfNew`.
* `f32`/`f64` arithmetic is modelled exactly over `ℚ`; the transcendental
  operations (`powf`, `ln`, `exp`, `sqrt`) have no exact counterpart and
  are abstracted as function parameters, as is the opaque zstd
  compression primitive (`compress : γ → List Nat → Nat` returning a
  compressed length).  Rounding of floating point is abstracted;
  non-finite values do not arise in the rational model.
* Rust functions that can panic are embedded with `Option`; `none`
  models the panic.
-/

set_option maxRecDepth 8000

namespace ChatClm

/-- Token code: fixed-length byte string (`pub type Token = Vec<u8>;`). -/
abbrev Token := List Nat

/-- Text fragment (a Rust `String`, here a list of characters). -/
abbrev Frag := List Char

/-! ## Association-list model of `HashMap` -/

/-- Lookup in an association list (first binding wins; under distinct
keys this is exactly `HashMap::get`). -/
def alGet? {α β : Type} [BEq α] (m : List (α × β)) (k : α) : Option β :=
  (m.find? (fun p => p.1 == k)).map Prod.snd

/-- `HashMap::insert`: replace the binding in place if the key is
present, otherwise add a new binding. -/
def alInsert {α β : Type} [BEq α] (m : List (α × β)) (k : α) (v : β) : List (α × β) :=
  match m with
  | [] => [(k, v)]
  | (k', v') :: rest => if k' == k then (k, v) :: rest else (k', v') :: alInsert rest k v

/-- `Entry::or_insert`: keep the map unchanged when the key is present,
otherwise add the binding at the end. -/
def alInsertIfNew {α β : Type} [BEq α] (m : List (α × β)) (k : α) (v : β) : List (α × β) :=
  if (m.any (fun p => p.1 == k)) then m else m ++ [(k, v)]

/-! ## Chunking (`slice::chunks`) -/

/-- Fuel-driven worker for `chunksOf`; the fuel bounds the number of
produced chunks so the definition is structurally recursive. -/
def chunksOfAux {α : Type} (k : Nat) : Nat → List α → List (List α)
  | _, [] => []
  | 0, _ => []
  | fuel + 1, l => l.take k :: chunksOfAux k fuel (l.drop k)

/-- Rust `slice::chunks(k)`: contiguous chunks of `k` elements, the last
one possibly shorter.  Requires `0 < k` to be meaningful (Rust panics on
`chunks(0)`). -/
def chunksOf {α : Type} (k : Nat) (l : List α) : List (List α) :=
  chunksOfAux k l.length l

/-- Ceiling division on naturals. -/
def natCeilDiv (n k : Nat) : Nat := (n + k - 1) / k

/-! ## Tokenizer: normalization

The source normalization lowercases, transliterates to ASCII
(`unidecode`) and keeps only `a`–`z`, space, `.`, `,`, `!`.  Lowercasing
and transliteration are the identity on the characters that survive the
filter, so on the normalized alphabet — the only domain the theorems
use — the whole pipeline is the filter below. -/

/-- Characters kept by `Tokenizer::normalize`. -/
def allowedChar (c : Char) : Bool :=
  c.isLower || c == ' ' || c == '.' || c == ',' || c == '!'

/-- `Tokenizer::normalize` restricted to its fixed alphabet (see module
comment; lowercase/transliteration are the identity there). -/
def normalize (text : List Char) : List Char :=
  text.filter allowedChar

/-! ## Tokenizer: trie-based greedy encoder -/

/-- Character-keyed trie node; each node optionally carries the code of
the fragment ending there (`struct TrieNode`). -/
inductive Trie where
  | node (code : Option Token) (children : List (Char × Trie))

/-- Code stored at this node. -/
def Trie.code : Trie → Option Token
  | .node c _ => c

/-- Children of this node. -/
def Trie.children : Trie → List (Char × Trie)
  | .node _ ch => ch

/-- Empty trie node (`TrieNode::new`). -/
def Trie.empty : Trie := .node none []

/-- Child of a node along one character edge. -/
def Trie.child? (t : Trie) (c : Char) : Option Trie :=
  alGet? t.children c

/-- `TrieNode::insert`: walk the fragment, creating nodes on demand, and
set the code at the final node. -/
def Trie.insert : Trie → Frag → Token → Trie
  | .node _co ch, [], code => .node (some code) ch
  | .node co ch, c :: s, code =>
    let sub := (alGet? ch c).getD Trie.empty
    .node co (alInsert ch c (sub.insert s code))

/-- Build the encoding trie from the vocabulary, as `encode_fast_opt`
does before scanning (one `insert` per `(fragment, code)` entry). -/
def buildTrie (toks : List (Frag × Token)) : Trie :=
  toks.foldl (fun t p => t.insert p.1 p.2) Trie.empty

/-- Code reached by following a full path from the node. -/
def Trie.pathCode : Trie → List Char → Option Token
  | t, [] => t.code
  | t, c :: s =>
    match t.child? c with
    | none => none
    | some ch => ch.pathCode s

/-- Inner scan of `encode_fast_opt`: starting at `t`, descend the trie
along the input as long as edges exist and return the deepest code seen
together with the number of characters it consumed.  The code at the
start node itself is never examined, exactly as in the source (the loop
only inspects `token_code` after stepping to a child). -/
def Trie.deepest : Trie → List Char → Option (Token × Nat)
  | _, [] => none
  | t, c :: s =>
    match t.child? c with
    | none => none
    | some ch =>
      match ch.deepest s with
      | some (co, l) => some (co, l + 1)
      | none =>
        match ch.code with
        | some co => some (co, 1)
        | none => none

/-- Outer loop of `encode_fast_opt`: at each position emit the deepest
match and advance by its length, or skip one character when no prefix
matches.  The fuel equals the input length; every iteration consumes at
least one character, so this reproduces the `while i < n` loop. -/
def encodeSteps (root : Trie) : Nat → List Char → List Token
  | 0, _ => []
  | _, [] => []
  | fuel + 1, c :: rest =>
    match root.deepest (c :: rest) with
    | some (co, l) => co :: encodeSteps root fuel (rest.drop (l - 1))
    | none => encodeSteps root fuel rest

/-- `Tokenizer::encode_fast_opt`: build the trie from the vocabulary,
normalize the input, scan greedily. -/
def encodeFastOpt (toks : List (Frag × Token)) (text : List Char) : List Token :=
  let normalized := normalize text
  encodeSteps (buildTrie toks) normalized.length normalized

/-- Reverse lookup used by `decode` (`build_reverse_map` followed by
`get`): find the fragment carrying a given code.  Under injective codes
this is independent of iteration order. -/
def reverseFind (toks : List (Frag × Token)) (code : Token) : Option Frag :=
  (toks.find? (fun p => p.2 == code)).map Prod.fst

/-- `Tokenizer::decode`: map every code to its fragment (or the literal
placeholder `[UNK]`) and concatenate. -/
def decode (toks : List (Frag × Token)) (codes : List Token) : List Char :=
  (codes.map (fun co => (reverseFind toks co).getD ("[UNK]".toList))).flatten

/-! ## Tokenizer: BPE training -/

/-- `Tokenizer::compute_token_code`: derive a `token_byte_size`-byte code
from the 64-bit hash of the fragment text; byte `i` is
`(hash >> (i*8)) & 0xFF`.  The hasher (`DefaultHasher`, SipHash with
fixed keys) is abstracted as the parameter `hashFn`. -/
def computeTokenCode (hashFn : Frag → Nat) (content : Frag) (tokenByteSize : Nat) : Token :=
  (List.range tokenByteSize).map (fun i => (hashFn content >>> (i * 8)) % 256)

/-- Increment a pair count (`*pair_counts.entry(pair).or_insert(0) += 1`). -/
def bumpPair (m : List ((Frag × Frag) × Nat)) (pr : Frag × Frag) : List ((Frag × Frag) × Nat) :=
  match m with
  | [] => [(pr, 1)]
  | (q, n) :: rest => if q == pr then (q, n + 1) :: rest else (q, n) :: bumpPair rest pr

/-- Adjacent pairs of one chunk, skipping any pair whose left fragment
ends with a space (word-boundary rule of `Tokenizer::train`). -/
def chunkPairs (chunk : List Frag) : List (Frag × Frag) :=
  (chunk.zip chunk.tail).filter (fun pr => !(pr.1.getLast? == some ' '))

/-- Pair counting across all chunks (`Tokenizer::train`, step 1). -/
def countPairs (chunks : List (List Frag)) : List ((Frag × Frag) × Nat) :=
  chunks.foldl (fun acc chunk => (chunkPairs chunk).foldl bumpPair acc) []

/-- `Iterator::max_by_key` over the pair counts: the pair with the
highest count, `none` when there are no pairs.  Rust's `HashMap`
iteration order makes tie-breaking implementation-defined; this model
keeps the first maximum in first-occurrence order. -/
def pickMaxPair (l : List ((Frag × Frag) × Nat)) : Option (Frag × Frag) :=
  (l.foldl
    (fun best p =>
      match best with
      | none => some p
      | some b => if b.2 < p.2 then some p else some b)
    none).map Prod.fst

/-- One left-to-right non-overlapping rewrite of a chunk: on finding the
pair `(a, b)`, replace it by the merged fragment and continue after it.
The source re-examines the merged fragment against `a` once, but since
the merged fragment `a ++ b` is strictly longer than `a` (fragments are
nonempty) that re-examination always fails and the scan advances, which
is exactly this recursion. -/
def applyMerge (a b : Frag) : List Frag → List Frag
  | [] => []
  | [x] => [x]
  | x :: y :: rest =>
    if x == a && y == b then (a ++ b) :: applyMerge a b rest
    else x :: applyMerge a b (y :: rest)

/-- State of the BPE training loop. -/
structure BpeState where
  vocab : List (Frag × Token)
  merges : List (Frag × Frag)
  chunks : List (List Frag)

/-- One iteration of the merge loop in `Tokenizer::train`: count pairs,
pick the most frequent, emit the merge, extend the vocabulary, rewrite
all chunks.  `none` when no pair exists (the `break`). -/
def bpeStep (hashFn : Frag → Nat) (tbs : Nat) (st : BpeState) : Option BpeState :=
  match pickMaxPair (countPairs st.chunks) with
  | none => none
  | some (a, b) =>
    let newTok := a ++ b
    some { vocab := alInsert st.vocab newTok (computeTokenCode hashFn newTok tbs)
         , merges := st.merges ++ [(a, b)]
         , chunks := st.chunks.map (applyMerge a b) }

/-- The `while vocab.len() < vocab_size` loop.  Every successful step
removes at least one fragment occurrence from the chunks, so the total
initial chunk length bounds the number of iterations and is used as
fuel. -/
def bpeLoop (hashFn : Frag → Nat) (tbs vocabSize : Nat) : Nat → BpeState → BpeState
  | 0, st => st
  | fuel + 1, st =>
    if st.vocab.length < vocabSize then
      match bpeStep hashFn tbs st with
      | some st' => bpeLoop hashFn tbs vocabSize fuel st'
      | none => st
    else st

/-- Tokenizer state after training (`struct Tokenizer`). -/
structure Tokenizer where
  tokens : List (Frag × Token)
  merges : List (Frag × Frag)
  vocabSize : Nat
  tokenByteSize : Nat

/-- `Tokenizer::train`: normalize, seed the vocabulary with every
distinct character (first-occurrence order), cut the character stream
into chunks of 1024 fragments, then run the merge loop. -/
def tokenizerTrain (hashFn : Frag → Nat) (tbs : Nat) (text : List Char) (vocabSize : Nat) :
    Tokenizer :=
  let normalized := normalize text
  let seeded := normalized.foldl
    (fun v c => alInsertIfNew v [c] (computeTokenCode hashFn [c] tbs)) []
  let chunks := chunksOf 1024 (normalized.map (fun c => [c]))
  let final := bpeLoop hashFn tbs vocabSize normalized.length
    { vocab := seeded, merges := [], chunks := chunks }
  { tokens := final.vocab, merges := final.merges
  , vocabSize := vocabSize, tokenByteSize := tbs }

/-! ## Training options -/

/-- The fields of `TrainingOptions` the embedded core uses.  The zstd
tuning parameters (`d`, `f`, `k`, …) are passed through opaquely by the
source and are not modelled. -/
structure TrainingOptions where
  ensemble_size : Nat
  training_chunk_size : Nat
  token_byte_size : Nat
  context_window : Nat
  dictionary_size_percentage : ℚ
  regularization : ℚ

/-! ## Dictionary trainer (`trainer.rs`) -/

/-- Arguments the trainer hands to
`ZDICT_optimizeTrainFromBuffer_fastCover`: concatenated sample bytes,
per-sub-chunk byte lengths, and the output buffer size. -/
structure TrainCall where
  rawData : List Nat
  sizes : List Nat
  bufferSize : Nat

/-- `train_model`: flatten the shard chunk-wise into bytes and assemble
the primitive's arguments.  `none` models the two fatal paths: the
empty-shard panic and the `sizes.len() >= 5` assertion.  The buffer-size
assertion can never fire (`max(…, 256)`), and the size-sum assertion
holds by construction; both are proved below rather than modelled as
failure paths.  The `(len as f64 * pct) as usize` cast truncates toward
zero and saturates at zero for negative products, which is `Int.toNat ∘
Int.floor` on `ℚ`. -/
def trainModelCall (opts : TrainingOptions) (inputTokens : List Token) : Option TrainCall :=
  if inputTokens.isEmpty then none
  else
    let chunks := (chunksOf opts.training_chunk_size inputTokens).map List.flatten
    let sizes := chunks.map List.length
    let rawData := chunks.flatten
    let bufferSize :=
      max (Int.toNat ⌊(rawData.length : ℚ) * opts.dictionary_size_percentage⌋) 256
    if sizes.length < 5 then none else some ⟨rawData, sizes, bufferSize⟩

/-! ## Ensemble model (`clm_model.rs`) -/

/-- Concatenation of token codes (`.iter().flatten()`). -/
def flattenTokens (ts : List Token) : List Nat := ts.flatten

/-- `ClmModel::train`'s sharding: `⌈N/E⌉` tokens per shard (the source
computes this with exact-on-integers `f64` arithmetic). -/
def clmShards (tokens : List Token) (ensembleSize : Nat) : List (List Token) :=
  chunksOf (natCeilDiv tokens.length ensembleSize) tokens

/-- `ClmModel::train` seen through the opaque primitives: one trained
dictionary per shard (`trainDict` stands for `train_model`, whose
argument assembly is `trainModelCall`), then one prepared dictionary per
trained dictionary (`createCDict` stands for `ZSTD_createCDict` at
`train_compression_level`).  Returns (shard dictionaries, prepared
dictionaries) in shard order. -/
def clmTrain {δ γ : Type} (trainDict : List Token → δ) (createCDict : δ → γ)
    (tokens : List Token) (opts : TrainingOptions) : List δ × List γ :=
  let chunkResults := (clmShards tokens opts.ensemble_size).map trainDict
  (chunkResults, chunkResults.map createCDict)

/-- Context slice of `ClmModel::compute_likelihoods`: the last
`min(|current_text|, context_window)` tokens. -/
def clmContext (opts : TrainingOptions) (currentText : List Token) : List Token :=
  let contextSize := min currentText.length opts.context_window
  currentText.drop (currentText.length - contextSize)

/-- Inner loop body of `ClmModel::compute_likelihoods` for one prepared
dictionary: compress the bare context once, then add
`(with_t − base) / #dicts` to every token's score.  `compress d bytes`
abstracts `ZSTD_compress_usingCDict` returning the compressed length.
The source updates a `HashMap` keyed by exactly the tokens of the score
map, which is the entry-wise map below. -/
def clmAddDict {γ : Type} (compress : γ → List Nat → Nat) (e : Nat) (context : List Token)
    (scores : List (Token × ℚ)) (d : γ) : List (Token × ℚ) :=
  let base := compress d (flattenTokens context)
  scores.map (fun p =>
    (p.1, p.2 + ((compress d (flattenTokens (context ++ [p.1])) : ℚ) - (base : ℚ)) / (e : ℚ)))

/-- `ClmModel::compute_likelihoods`: accumulate scores over all prepared
dictionaries, apply the base-`inference_basis` softmax, regularize, and
renormalize.  `rpow x` abstracts `inference_basis.powf(x)`; the source
applies it to `-score`. -/
def clmComputeLikelihoods {γ : Type} (compress : γ → List Nat → Nat) (rpow : ℚ → ℚ)
    (cdicts : List γ) (opts : TrainingOptions) (currentText allTokens : List Token) :
    List (Token × ℚ) :=
  let context := clmContext opts currentText
  let scores0 : List (Token × ℚ) := allTokens.map (fun t => (t, 0))
  let scores := cdicts.foldl (clmAddDict compress cdicts.length context) scores0
  let inverted := scores.map (fun p => (p.1, rpow (-p.2)))
  let s1 := (inverted.map Prod.snd).sum
  let softmaxScores := inverted.map (fun p => (p.1, p.2 / s1))
  let regularized := softmaxScores.map
    (fun p => (p.1, p.2 + opts.regularization / (allTokens.length : ℚ)))
  let s2 := (regularized.map Prod.snd).sum
  regularized.map (fun p => (p.1, p.2 / s2))

/-! ## Baseline models (`uniform_model.rs`, `ngram_model.rs`) -/

/-- `UniformModel::compute_likelihoods`: every token gets `1/|V|`. -/
def uniformComputeLikelihoods (allTokens : List Token) : List (Token × ℚ) :=
  allTokens.map (fun t => (t, 1 / (allTokens.length : ℚ)))

/-- The shared final normalization of the baseline models: divide by the
sum when it is positive, otherwise leave the values unchanged. -/
def normalizeLikelihoods (l : List (Token × ℚ)) : List (Token × ℚ) :=
  let s := (l.map Prod.snd).sum
  if 0 < s then l.map (fun p => (p.1, p.2 / s)) else l

/-- `UnigramModel::compute_likelihoods` given the training stream the
model was trained on (`token_counts t = training.count t`, with `t` a
key exactly when its count is positive).  `none` models the panic of
`token_counts.get(token).unwrap()` on a token never seen in training. -/
def unigramComputeLikelihoods (training : List Token) (allTokens : List Token) :
    Option (List (Token × ℚ)) :=
  if 0 < training.length then
    if allTokens.all (fun t => 0 < training.count t) then
      some (normalizeLikelihoods (allTokens.map (fun t => (t, (training.count t : ℚ)))))
    else none
  else some (normalizeLikelihoods (uniformComputeLikelihoods allTokens))

/-- Adjacent token pairs of the bigram training stream; the transition
count `transition_counts[prev][next]` is the number of occurrences of
`(prev, next)` in this list, with `prev` a key exactly when it occurs as
a left component. -/
def bigramPairs (training : List Token) : List (Token × Token) :=
  training.zip training.tail

/-- `BigramModel::compute_likelihoods`.  `none` models the panic of
`current_text.last().unwrap()` on an empty prefix.  With a known last
token, a seen successor contributes its stored count and an unseen one
the fallback `⌊total/|V|⌋ + 1`; both get the additive `+ 60`; unknown
last tokens fall back to the uniform distribution. -/
def bigramComputeLikelihoods (training : List Token) (currentText allTokens : List Token) :
    Option (List (Token × ℚ)) :=
  match currentText.getLast? with
  | none => none
  | some lastTok =>
    let pairs := bigramPairs training
    if pairs.any (fun p => p.1 == lastTok) then
      let totalCount := (pairs.filter (fun p => p.1 == lastTok)).length
      let defaultCount := totalCount / allTokens.length + 1
      some (normalizeLikelihoods (allTokens.map (fun t =>
        let n := pairs.count (lastTok, t)
        (t, ((if 0 < n then n else defaultCount : Nat) : ℚ) + 60))))
    else
      some (normalizeLikelihoods (uniformComputeLikelihoods allTokens))

/-! ## Evaluator (`evaluate.rs`) -/

/-- `check_distribution` panics exactly when this predicate holds: some
likelihood is negative (in the exact rational model the non-finite
float cases cannot arise). -/
def checkDistributionPanics (l : List (Token × ℚ)) : Bool :=
  l.any (fun p => decide (p.2 < 0))

/-- The scored positions of `evaluate`: `(32..tokens.len())`. -/
def evaluatePositions (tokens : List Token) : List Nat :=
  List.range' 32 (tokens.length - 32)

/-- The (prefix, ground-truth) pair the evaluator builds at one scored
position: `tokens[0..(pos - 1)]` and `tokens[pos]`. -/
def evaluateCalls (tokens : List Token) : List (List Token × Token) :=
  (evaluatePositions tokens).map (fun pos => (tokens.take (pos - 1), tokens.getD pos []))

/-- The likelihood the evaluator records at each scored position: the
probability the model's distribution on the prefix assigns to the
ground-truth token (`none` when the ground truth is absent, which is the
fatal `unwrap_or_else` panic). -/
def evaluateRecorded (model : List Token → List (Token × ℚ)) (tokens : List Token) :
    List (Option ℚ) :=
  (evaluateCalls tokens).map (fun pc => alGet? (model pc.1) pc.2)

/-- Statistics record of `calculate_model_stats` (`ModelStats` without
the wall-clock field, which is not modelled). -/
structure ModelStats where
  average_likelihood : ℚ
  cross_entropy : ℚ
  perplexity : ℚ
  perplexity_stderr : ℚ
  ppt : ℚ
  ppt_stderr : ℚ

/-- `calculate_model_stats`: the transcendentals `ln`, `sqrt`, `exp` of
`f64` are abstracted as the parameters `lnf`, `sqrtf`, `expf`. -/
def calculateModelStats (lnf sqrtf expf : ℚ → ℚ) (likelihoods : List ℚ)
    (allTokens : List Token) : ModelStats :=
  let average_likelihood := likelihoods.sum / (likelihoods.length : ℚ)
  let crossEntropies := likelihoods.map (fun x => -(lnf x))
  let crossEntropyMean := crossEntropies.sum / (crossEntropies.length : ℚ)
  let crossEntropyVariance :=
    (crossEntropies.map (fun x => (x - crossEntropyMean) ^ 2)).sum
      / ((crossEntropies.length - 1 : Nat) : ℚ)
  let crossEntropyStderr := sqrtf crossEntropyVariance / sqrtf (crossEntropies.length : ℚ)
  let perplexity := expf crossEntropyMean
  let perplexity_stderr := perplexity * crossEntropyStderr
  { average_likelihood := average_likelihood
  , cross_entropy := crossEntropyMean
  , perplexity := perplexity
  , perplexity_stderr := perplexity_stderr
  , ppt := perplexity / (allTokens.length : ℚ)
  , ppt_stderr := perplexity_stderr / (allTokens.length : ℚ) }

/-! ## Lemmas: chunking -/

theorem chunksOfAux_fuel {α : Type} (k : Nat) (fuel1 fuel2 : Nat) (l : List α)
    (hk : 0 < k) (h1 : l.length ≤ fuel1) (h2 : l.length ≤ fuel2) :
    chunksOfAux k fuel1 l = chunksOfAux k fuel2 l := by
  induction fuel1 generalizing fuel2 l with
  | zero =>
    have : l = [] := List.eq_nil_of_length_eq_zero (Nat.le_zero.mp h1)
    subst this
    cases fuel2 <;> rfl
  | succ fuel ih =>
    cases l with
    | nil => cases fuel2 <;> rfl
    | cons a tl =>
      have h2' : 0 < fuel2 := lt_of_lt_of_le (by simp) h2
      obtain ⟨f2, rfl⟩ := Nat.exists_eq_succ_of_ne_zero (Nat.pos_iff_ne_zero.mp h2')
      show ((a :: tl).take k :: chunksOfAux k fuel ((a :: tl).drop k))
          = ((a :: tl).take k :: chunksOfAux k f2 ((a :: tl).drop k))
      have hd : ((a :: tl).drop k).length ≤ fuel := by
        simp only [List.length_drop, List.length_cons] at *
        omega
      have hd2 : ((a :: tl).drop k).length ≤ f2 := by
        simp only [List.length_drop, List.length_cons] at *
        omega
      rw [ih f2 ((a :: tl).drop k) hd hd2]

theorem chunksOf_nil {α : Type} (k : Nat) : chunksOf k ([] : List α) = [] := rfl

theorem chunksOf_cons {α : Type} (k : Nat) (l : List α) (hk : 0 < k) (hl : l ≠ []) :
    chunksOf k l = l.take k :: chunksOf k (l.drop k) := by
  obtain ⟨a, tl, rfl⟩ := List.exists_cons_of_ne_nil hl
  show chunksOfAux k (a :: tl).length (a :: tl) = _
  have : (a :: tl).length = tl.length + 1 := rfl
  rw [this]
  show ((a :: tl).take k :: chunksOfAux k tl.length ((a :: tl).drop k)) = _
  rw [chunksOfAux_fuel k tl.length ((a :: tl).drop k).length ((a :: tl).drop k) hk
    (by simp only [List.length_drop, List.length_cons]; omega) le_rfl]
  rfl

theorem chunksOf_flatten {α : Type} (k : Nat) (l : List α) (hk : 0 < k) :
    (chunksOf k l).flatten = l := by
  by_cases hl : l = []
  · subst hl; rfl
  · rw [chunksOf_cons k l hk hl]
    have ih := chunksOf_flatten k (l.drop k) hk
    simp [ih]
termination_by l.length
decreasing_by
  simp only [List.length_drop]
  have : 0 < l.length := List.length_pos.mpr hl
  omega

theorem chunksOf_length {α : Type} (k : Nat) (l : List α) (hk : 0 < k) :
    (chunksOf k l).length = natCeilDiv l.length k := by
  by_cases hl : l = []
  · subst hl
    simp only [chunksOf_nil, List.length_nil, natCeilDiv]
    exact (Nat.div_eq_of_lt (by omega)).symm
  · rw [chunksOf_cons k l hk hl]
    have ih := chunksOf_length k (l.drop k) hk
    have hpos : 0 < l.length := List.length_pos.mpr hl
    simp only [List.length_cons, ih, List.length_drop, natCeilDiv]
    have e : l.length + k - 1 = (l.length - 1) + k := by omega
    rw [e, Nat.add_div_right _ hk]
    rcases Nat.lt_or_ge l.length k with h | h
    · have h1 : l.length - k = 0 := by omega
      rw [h1]
      have h2 : (0 + k - 1) / k = 0 := Nat.div_eq_of_lt (by omega)
      have h3 : (l.length - 1) / k = 0 := Nat.div_eq_of_lt (by omega)
      omega
    · have h1 : l.length - k + k - 1 = l.length - 1 := by omega
      rw [h1]
termination_by l.length
decreasing_by
  simp only [List.length_drop]
  have : 0 < l.length := List.length_pos.mpr hl
  omega

theorem chunksOf_dropLast_length {α : Type} (k : Nat) (l : List α) (hk : 0 < k) :
    ∀ c ∈ (chunksOf k l).dropLast, c.length = k := by
  by_cases hl : l = []
  · subst hl; simp [chunksOf_nil]
  · rw [chunksOf_cons k l hk hl]
    by_cases hr : chunksOf k (l.drop k) = []
    · simp [hr]
    · rw [List.dropLast_cons_of_ne_nil hr]
      intro c hc
      rcases List.mem_cons.mp hc with h | h
      · subst h
        have hk' : k ≤ l.length := by
          by_contra hlt
          push_neg at hlt
          have : l.drop k = [] := List.drop_eq_nil_of_le (le_of_lt hlt)
          rw [this] at hr
          exact hr (chunksOf_nil k)
        simp [List.length_take, Nat.min_eq_left hk']
      · exact chunksOf_dropLast_length k (l.drop k) hk c h
termination_by l.length
decreasing_by
  simp only [List.length_drop]
  have : 0 < l.length := List.length_pos.mpr hl
  omega

theorem chunksOf_mem_length {α : Type} (k : Nat) (l : List α) (hk : 0 < k) :
    ∀ c ∈ chunksOf k l, c.length ≤ k ∧ c ≠ [] := by
  by_cases hl : l = []
  · subst hl; simp [chunksOf_nil]
  · rw [chunksOf_cons k l hk hl]
    intro c hc
    rcases List.mem_cons.mp hc with h | h
    · subst h
      constructor
      · simp [List.length_take]
      · simp only [ne_eq, List.take_eq_nil_iff]
        push_neg
        exact ⟨Nat.pos_iff_ne_zero.mp hk, hl⟩
    · exact chunksOf_mem_length k (l.drop k) hk c h
termination_by l.length
decreasing_by
  simp only [List.length_drop]
  have : 0 < l.length := List.length_pos.mpr hl
  omega

/-! ## Lemmas: sums and distributions -/

/-- Keys of a distribution (its domain). -/
def distKeys (d : List (Token × ℚ)) : List Token := d.map Prod.fst

/-- Total probability mass of a distribution. -/
def distSum (d : List (Token × ℚ)) : ℚ := (d.map Prod.snd).sum

/-- Specification-side well-formedness of a returned distribution
(§8 universal property 1): domain exactly `V`, all values non-negative
(finiteness is automatic over `ℚ`), and total mass in
`[1 − 10⁻³, 1 + 10⁻³]`; the rational model in fact gives mass exactly 1,
recorded alongside. -/
def goodDist (V : List Token) (d : List (Token × ℚ)) : Prop :=
  distKeys d = V ∧ (∀ p ∈ d, 0 ≤ p.2) ∧ distSum d = 1
    ∧ 1 - 1 / 1000 ≤ distSum d ∧ distSum d ≤ 1 + 1 / 1000

theorem qsum_map_div (xs : List ℚ) (s : ℚ) :
    (xs.map (fun x => x / s)).sum = xs.sum / s := by
  induction xs with
  | nil => simp
  | cons x xs ih => simp [ih, add_div]

theorem qsum_map_const {α : Type} (l : List α) (c : ℚ) :
    (l.map (fun _ => c)).sum = (l.length : ℚ) * c := by
  induction l with
  | nil => simp
  | cons x xs ih =>
    simp only [List.map_cons, List.sum_cons, ih, List.length_cons]
    push_cast
    ring

theorem normalizeLikelihoods_keys (l : List (Token × ℚ)) :
    distKeys (normalizeLikelihoods l) = distKeys l := by
  unfold normalizeLikelihoods distKeys
  by_cases h : 0 < (l.map Prod.snd).sum <;> simp [h]

theorem normalizeLikelihoods_nonneg (l : List (Token × ℚ)) (h : ∀ p ∈ l, 0 ≤ p.2) :
    ∀ p ∈ normalizeLikelihoods l, 0 ≤ p.2 := by
  unfold normalizeLikelihoods
  by_cases hs : 0 < (l.map Prod.snd).sum
  · simp only [hs, if_true]
    intro p hp
    obtain ⟨q, hq, rfl⟩ := List.mem_map.mp hp
    exact div_nonneg (h q hq) (le_of_lt hs)
  · simpa [hs] using h

theorem normalizeLikelihoods_sum (l : List (Token × ℚ)) (h : 0 < distSum l) :
    distSum (normalizeLikelihoods l) = 1 := by
  unfold normalizeLikelihoods
  unfold distSum at *
  simp only [h, if_true, List.map_map]
  have e : (Prod.snd ∘ fun p : Token × ℚ => (p.1, p.2 / (l.map Prod.snd).sum))
      = fun p : Token × ℚ => p.2 / (l.map Prod.snd).sum := rfl
  rw [e]
  have e2 : (l.map fun p : Token × ℚ => p.2 / (l.map Prod.snd).sum)
      = (l.map Prod.snd).map (fun x => x / (l.map Prod.snd).sum) := by
    simp [List.map_map]
  rw [e2, qsum_map_div]
  exact div_self (ne_of_gt h)

/-- Distributions that are maps over the vocabulary: their keys. -/
theorem distKeys_map (V : List Token) (f : Token → ℚ) :
    distKeys (V.map (fun t => (t, f t))) = V := by
  simp [distKeys, List.map_map, Function.comp_def]

/-- Distributions that are maps over the vocabulary: their mass. -/
theorem distSum_map (V : List Token) (f : Token → ℚ) :
    distSum (V.map (fun t => (t, f t))) = (V.map f).sum := by
  simp [distSum, List.map_map]
  rfl

/-! ## Lemmas: ensemble score accumulation -/

/-- Score of one candidate as the specification states it: the summed
compressed-length deltas over the ensemble, divided by the ensemble
cardinality. -/
def clmSpecScore {γ : Type} (compress : γ → List Nat → Nat) (cdicts : List γ)
    (context : List Token) (t : Token) : ℚ :=
  ((cdicts.map (fun d => ((compress d (flattenTokens (context ++ [t])) : ℚ)
      - (compress d (flattenTokens context) : ℚ)))).sum) / (cdicts.length : ℚ)

/-- Likelihood of one candidate as the specification states it:
`ctx` is the last `min(|P|, context_window)` tokens of the prefix,
`raw t = inference_basis ^ (−score t)`, `p t = raw t / Σ raw`,
`p' t = p t + regularization / |V|`, and the result is `p' t / Σ p'`. -/
def clmSpecLikelihood {γ : Type} (compress : γ → List Nat → Nat) (rpow : ℚ → ℚ)
    (cdicts : List γ) (opts : TrainingOptions) (currentText allTokens : List Token)
    (t : Token) : ℚ :=
  let ctx := currentText.drop (currentText.length - min currentText.length opts.context_window)
  let raw := fun u => rpow (-(clmSpecScore compress cdicts ctx u))
  let sraw := (allTokens.map raw).sum
  let p := fun u => raw u / sraw
  let pReg := fun u => p u + opts.regularization / (allTokens.length : ℚ)
  let sReg := (allTokens.map pReg).sum
  pReg t / sReg

theorem clmAddDict_foldl {γ : Type} (compress : γ → List Nat → Nat) (e : Nat)
    (context : List Token) (V : List Token) (ds : List γ) (f : Token → ℚ) :
    ds.foldl (clmAddDict compress e context) (V.map (fun t => (t, f t)))
      = V.map (fun t => (t, f t +
          ((ds.map (fun d => ((compress d (flattenTokens (context ++ [t])) : ℚ)
            - (compress d (flattenTokens context) : ℚ)))).sum) / (e : ℚ))) := by
  induction ds generalizing f with
  | nil => simp
  | cons d ds ih =>
    rw [List.foldl_cons]
    have step : clmAddDict compress e context (V.map (fun t => (t, f t))) d
        = V.map (fun t => (t, f t + ((compress d (flattenTokens (context ++ [t])) : ℚ)
            - (compress d (flattenTokens context) : ℚ)) / (e : ℚ))) := by
      simp [clmAddDict, List.map_map]
    rw [step, ih]
    congr 1
    funext t
    simp only [List.map_cons, List.sum_cons, add_div, add_assoc]

/-- Representation of `ClmModel::compute_likelihoods` as a map over the
vocabulary of the specification's closed-form likelihood. -/
theorem clm_likelihoods_repr {γ : Type} (compress : γ → List Nat → Nat) (rpow : ℚ → ℚ)
    (cdicts : List γ) (opts : TrainingOptions) (currentText allTokens : List Token) :
    clmComputeLikelihoods compress rpow cdicts opts currentText allTokens
      = allTokens.map (fun t =>
          (t, clmSpecLikelihood compress rpow cdicts opts currentText allTokens t)) := by
  have base := clmAddDict_foldl compress cdicts.length
    (currentText.drop (currentText.length - min currentText.length opts.context_window))
    allTokens cdicts (fun _ => (0 : ℚ))
  simp only [clmComputeLikelihoods, clmSpecLikelihood, clmContext, clmSpecScore]
  rw [base]
  simp only [List.map_map, Function.comp_def, zero_add]

/-! ## Lemmas: association lists -/

theorem alGet?_nil {α β : Type} [BEq α] (k : α) : alGet? ([] : List (α × β)) k = none := rfl

theorem alGet?_cons {α β : Type} [BEq α] [LawfulBEq α] [DecidableEq α] (k0 : α) (v0 : β)
    (rest : List (α × β)) (k : α) :
    alGet? ((k0, v0) :: rest) k = if k0 = k then some v0 else alGet? rest k := by
  by_cases h : k0 = k
  · rw [alGet?, List.find?_cons_of_pos _ (by simp [h]), if_pos h]
    rfl
  · rw [alGet?, List.find?_cons_of_neg _ (by simp [h]), if_neg h]
    rfl

theorem alGet?_alInsert {α β : Type} [BEq α] [LawfulBEq α] [DecidableEq α]
    (m : List (α × β)) (k k' : α) (v : β) :
    alGet? (alInsert m k v) k' = if k' = k then some v else alGet? m k' := by
  induction m with
  | nil =>
    show alGet? [(k, v)] k' = _
    by_cases h : k' = k
    · subst h
      rw [alGet?_cons, if_pos rfl]
    · rw [alGet?_cons, if_neg (fun he => h he.symm), if_neg h]
  | cons p rest ih =>
    obtain ⟨k0, v0⟩ := p
    by_cases h0 : k0 = k
    · have he : alInsert ((k0, v0) :: rest) k v = (k, v) :: rest := by
        simp [alInsert, h0]
      rw [he]
      by_cases h : k' = k
      · subst h
        rw [alGet?_cons, if_pos rfl, if_pos rfl]
      · rw [alGet?_cons, if_neg (fun he2 => h he2.symm), if_neg h, alGet?_cons,
          if_neg (fun he2 => h (h0 ▸ he2).symm)]
    · have he : alInsert ((k0, v0) :: rest) k v = (k0, v0) :: alInsert rest k v := by
        simp [alInsert, h0]
      rw [he, alGet?_cons, alGet?_cons]
      by_cases h1 : k0 = k'
      · have hkk : ¬ k' = k := fun he2 => h0 (h1.trans he2)
        rw [if_pos h1, if_neg hkk, if_pos h1]
      · rw [if_neg h1, if_neg h1, ih]

theorem alGet?_eq_none_of_not_mem {α β : Type} [BEq α] [LawfulBEq α]
    (m : List (α × β)) (k : α) (h : k ∉ m.map Prod.fst) : alGet? m k = none := by
  unfold alGet?
  rw [List.find?_eq_none.mpr]
  · rfl
  · intro p hp
    simp only [beq_iff_eq]
    intro he
    exact h (List.mem_map.mpr ⟨p, hp, he⟩)

theorem alGet?_mem {α β : Type} [BEq α] [LawfulBEq α] (m : List (α × β)) (k : α) (v : β)
    (h : alGet? m k = some v) : (k, v) ∈ m := by
  unfold alGet? at h
  obtain ⟨p, hfind⟩ := Option.map_eq_some'.mp h
  obtain ⟨hf, hsnd⟩ := hfind
  have hmem := List.mem_of_find?_eq_some hf
  have hpred := List.find?_some hf
  simp only [beq_iff_eq] at hpred
  have : p = (k, v) := Prod.ext hpred hsnd
  exact this ▸ hmem

theorem alGet?_isSome_of_mem {α β : Type} [BEq α] [LawfulBEq α] (m : List (α × β))
    (k : α) (v : β) (h : (k, v) ∈ m) : (alGet? m k).isSome := by
  unfold alGet?
  have h2 : (List.find? (fun p => p.1 == k) m).isSome :=
    List.find?_isSome.mpr ⟨(k, v), h, by simp⟩
  cases hf : List.find? (fun p => p.1 == k) m
  · rw [hf] at h2
    simp at h2
  · simp [hf]

theorem alGet?_append {α β : Type} [BEq α] (m1 m2 : List (α × β)) (k : α) :
    alGet? (m1 ++ m2) k
      = match alGet? m1 k with
        | some v => some v
        | none => alGet? m2 k := by
  unfold alGet?
  rw [List.find?_append]
  cases List.find? (fun p => p.1 == k) m1 <;> simp [Option.orElse]

theorem alGet?_reverse {α β : Type} [BEq α] [LawfulBEq α] [DecidableEq α]
    (m : List (α × β)) (k : α) (hnd : (m.map Prod.fst).Nodup) :
    alGet? m.reverse k = alGet? m k := by
  induction m with
  | nil => rfl
  | cons p rest ih =>
    obtain ⟨k0, v0⟩ := p
    simp only [List.map_cons, List.nodup_cons] at hnd
    obtain ⟨hk0, hrest⟩ := hnd
    have hr : alGet? ((k0, v0) :: rest) k = if k0 = k then some v0 else alGet? rest k :=
      alGet?_cons k0 v0 rest k
    rw [List.reverse_cons, alGet?_append, ih hrest, hr]
    by_cases h : k0 = k
    · have hnone : alGet? rest k = none := alGet?_eq_none_of_not_mem rest k (h ▸ hk0)
      rw [hnone, if_pos h]
      show alGet? [(k0, v0)] k = some v0
      rw [alGet?_cons, if_pos h]
    · rw [if_neg h]
      cases hres : alGet? rest k
      · show alGet? [(k0, v0)] k = none
        rw [alGet?_cons, if_neg h]
        rfl
      · rfl

theorem alGet?_perm {α β : Type} [BEq α] [LawfulBEq α] [DecidableEq α]
    (m1 m2 : List (α × β)) (hperm : m1.Perm m2) (hnd : (m1.map Prod.fst).Nodup) (k : α) :
    alGet? m1 k = alGet? m2 k := by
  induction hperm with
  | nil => rfl
  | cons p h ih =>
    obtain ⟨k0, v0⟩ := p
    simp only [List.map_cons, List.nodup_cons] at hnd
    rw [alGet?_cons, alGet?_cons]
    by_cases hk : k0 = k
    · rw [if_pos hk, if_pos hk]
    · rw [if_neg hk, if_neg hk, ih hnd.2]
  | swap p q l =>
    obtain ⟨kp, vp⟩ := p
    obtain ⟨kq, vq⟩ := q
    simp only [List.map_cons, List.nodup_cons, List.mem_cons] at hnd
    have hne : ¬ kq = kp := fun he => hnd.1 (Or.inl he)
    have e1 : alGet? ((kq, vq) :: (kp, vp) :: l) k
        = if kq = k then some vq else if kp = k then some vp else alGet? l k := by
      rw [alGet?_cons]
      by_cases h : kq = k
      · rw [if_pos h, if_pos h]
      · rw [if_neg h, if_neg h, alGet?_cons]
    have e2 : alGet? ((kp, vp) :: (kq, vq) :: l) k
        = if kp = k then some vp else if kq = k then some vq else alGet? l k := by
      rw [alGet?_cons]
      by_cases h : kp = k
      · rw [if_pos h, if_pos h]
      · rw [if_neg h, if_neg h, alGet?_cons]
    rw [e1, e2]
    by_cases h1 : kp = k <;> by_cases h2 : kq = k
    · exact absurd (h2.trans h1.symm) hne
    · simp [h1, h2]
    · simp [h1, h2]
    · simp [h1, h2]
  | trans h1 h2 ih1 ih2 =>
    rw [ih1 hnd, ih2 ((h1.map Prod.fst).nodup_iff.mp hnd)]

/-! ## Lemmas: trie structure -/

theorem Trie.pathCode_nil (t : Trie) : t.pathCode [] = t.code := rfl

theorem Trie.pathCode_cons (t : Trie) (c : Char) (s : List Char) :
    t.pathCode (c :: s)
      = match t.child? c with
        | none => none
        | some ch => ch.pathCode s := rfl

theorem Trie.deepest_nil (t : Trie) : t.deepest [] = none := rfl

theorem Trie.deepest_cons (t : Trie) (c : Char) (s : List Char) :
    t.deepest (c :: s)
      = match t.child? c with
        | none => none
        | some ch =>
          match ch.deepest s with
          | some (co, l) => some (co, l + 1)
          | none =>
            match ch.code with
            | some co => some (co, 1)
            | none => none := rfl

theorem pathCode_empty (s : List Char) : Trie.empty.pathCode s = none := by
  cases s <;> rfl

theorem pathCode_insert (t : Trie) (s : Frag) (code : Token) (s' : List Char) :
    (t.insert s code).pathCode s' = if s' = s then some code else t.pathCode s' := by
  induction s generalizing t s' with
  | nil =>
    obtain ⟨tco, tch⟩ := t
    cases s' with
    | nil => simp [Trie.insert, Trie.pathCode_nil, Trie.code]
    | cons c' r' =>
      rw [if_neg (by simp)]
      rfl
  | cons c srest ih =>
    obtain ⟨tco, tch⟩ := t
    cases s' with
    | nil =>
      rw [if_neg (by simp)]
      rfl
    | cons c' r' =>
      show (Trie.node tco (alInsert tch c
          ((((alGet? tch c).getD Trie.empty)).insert srest code))).pathCode (c' :: r') = _
      rw [Trie.pathCode_cons]
      show (match alGet? (alInsert tch c (((alGet? tch c).getD Trie.empty).insert srest code))
          c' with
        | none => none
        | some ch => ch.pathCode r') = _
      rw [alGet?_alInsert]
      by_cases hc : c' = c
      · subst hc
        rw [if_pos rfl]
        show (((alGet? tch c').getD Trie.empty).insert srest code).pathCode r' = _
        rw [ih]
        by_cases hr : r' = srest
        · rw [if_pos hr, if_pos (by rw [hr])]
        · rw [if_neg hr, if_neg (by simp [hr])]
          rw [Trie.pathCode_cons]
          show _ = (match alGet? tch c' with
            | none => none
            | some ch => ch.pathCode r')
          cases hsub : alGet? tch c'
          · rw [Option.getD_none]
            exact pathCode_empty r'
          · rw [Option.getD_some]
      · rw [if_neg hc, if_neg (by simp [hc])]
        rfl

theorem pathCode_foldl (L : List (Frag × Token)) (t : Trie) (s : Frag) :
    (L.foldl (fun acc p => acc.insert p.1 p.2) t).pathCode s
      = match alGet? L.reverse s with
        | some v => some v
        | none => t.pathCode s := by
  induction L generalizing t with
  | nil => rfl
  | cons p rest ih =>
    rw [List.foldl_cons, ih, List.reverse_cons, alGet?_append]
    cases h : alGet? rest.reverse s with
    | some v => rfl
    | none =>
      obtain ⟨k0, v0⟩ := p
      rw [pathCode_insert]
      have e : alGet? [(k0, v0)] s = if k0 = s then some v0 else none := by
        rw [alGet?_cons, alGet?_nil]
      rw [e]
      by_cases hk : s = k0
      · rw [if_pos hk, if_pos hk.symm]
      · rw [if_neg hk, if_neg (fun he => hk he.symm)]

theorem pathCode_buildTrie (L : List (Frag × Token)) (hnd : (L.map Prod.fst).Nodup)
    (s : Frag) : (buildTrie L).pathCode s = alGet? L s := by
  unfold buildTrie
  rw [pathCode_foldl, alGet?_reverse L s hnd]
  cases h : alGet? L s with
  | some v => rfl
  | none => exact pathCode_empty s

/-! ## Lemmas: greedy matching -/

theorem deepest_sound (t : Trie) (cs : List Char) (co : Token) (l : Nat)
    (h : t.deepest cs = some (co, l)) :
    1 ≤ l ∧ l ≤ cs.length ∧ t.pathCode (cs.take l) = some co := by
  induction cs generalizing t co l with
  | nil => exact absurd h (by simp [Trie.deepest_nil])
  | cons c rest ih =>
    rw [Trie.deepest_cons] at h
    split at h
    · exact absurd h (by simp)
    · rename_i ch hch
      split at h
      · rename_i co0 l0 hd
        have hinj : co0 = co ∧ l0 + 1 = l := by simpa using h
        obtain ⟨rfl, hl⟩ := hinj
        obtain ⟨h1, h2, h3⟩ := ih ch co0 l0 hd
        subst hl
        refine ⟨by omega, by simp only [List.length_cons]; omega, ?_⟩
        rw [List.take_succ_cons, Trie.pathCode_cons, hch]
        exact h3
      · rename_i hd
        split at h
        · rename_i co0 hco
          have hinj : co0 = co ∧ 1 = l := by simpa using h
          obtain ⟨rfl, hl⟩ := hinj
          subst hl
          refine ⟨le_rfl, by simp, ?_⟩
          simp only [show (c :: rest).take 1 = [c] from rfl, Trie.pathCode_cons, hch,
            Trie.pathCode_nil]
          exact hco
        · exact absurd h (by simp)

theorem deepest_complete (t : Trie) (cs : List Char) (m : Nat) (co' : Token)
    (hm1 : 1 ≤ m) (hm2 : m ≤ cs.length)
    (h : t.pathCode (cs.take m) = some co') :
    ∃ co l, t.deepest cs = some (co, l) ∧ m ≤ l := by
  induction cs generalizing t m co' with
  | nil =>
    simp only [List.length_nil] at hm2
    omega
  | cons c rest ih =>
    obtain ⟨m0, rfl⟩ : ∃ m0, m = m0 + 1 := ⟨m - 1, by omega⟩
    rw [List.take_succ_cons, Trie.pathCode_cons] at h
    split at h
    · exact absurd h (by simp)
    · rename_i ch hch
      cases m0 with
      | zero =>
        rw [List.take_zero, Trie.pathCode_nil] at h
        cases hd : ch.deepest rest with
        | some pr =>
          obtain ⟨co0, l0⟩ := pr
          refine ⟨co0, l0 + 1, ?_, by omega⟩
          simp [Trie.deepest_cons, hch, hd]
        | none =>
          refine ⟨co', 1, ?_, le_rfl⟩
          simp [Trie.deepest_cons, hch, hd, h]
      | succ m1 =>
        have hm2' : m1 + 1 ≤ rest.length := by
          simp only [List.length_cons] at hm2
          omega
        obtain ⟨co0, l0, hd, hle⟩ := ih ch (m1 + 1) co' (by omega) hm2' h
        refine ⟨co0, l0 + 1, ?_, by omega⟩
        simp [Trie.deepest_cons, hch, hd]

theorem deepest_none (t : Trie) (cs : List Char) (h : t.deepest cs = none) :
    ∀ m, 1 ≤ m → m ≤ cs.length → t.pathCode (cs.take m) = none := by
  intro m h1 h2
  cases hpc : t.pathCode (cs.take m) with
  | none => rfl
  | some co' =>
    obtain ⟨co, l, hd, _⟩ := deepest_complete t cs m co' h1 h2 hpc
    rw [h] at hd
    exact absurd hd (by simp)

theorem deepest_max (t : Trie) (cs : List Char) (co : Token) (l : Nat)
    (h : t.deepest cs = some (co, l)) :
    ∀ m, l < m → m ≤ cs.length → t.pathCode (cs.take m) = none := by
  induction cs generalizing t co l with
  | nil =>
    intro m hm1 hm2
    simp only [List.length_nil] at hm2
    omega
  | cons c rest ih =>
    intro m hm1 hm2
    obtain ⟨m0, rfl⟩ : ∃ m0, m = m0 + 1 := ⟨m - 1, by omega⟩
    rw [List.take_succ_cons, Trie.pathCode_cons]
    rw [Trie.deepest_cons] at h
    split at h
    · exact absurd h (by simp)
    · rename_i ch hch
      split at h
      · rename_i co0 l0 hd
        have hinj : co0 = co ∧ l0 + 1 = l := by simpa using h
        obtain ⟨rfl, hl⟩ := hinj
        exact ih ch co0 l0 hd m0 (by omega)
          (by simp only [List.length_cons] at hm2; omega)
      · rename_i hd
        split at h
        · rename_i co0 hco
          have hinj : co0 = co ∧ 1 = l := by simpa using h
          have hl : l = 1 := hinj.2.symm
          exact deepest_none ch rest hd m0 (by omega)
            (by simp only [List.length_cons] at hm2; omega)
        · exact absurd h (by simp)

theorem deepest_le (t : Trie) (cs : List Char) (co : Token) (l : Nat)
    (h : t.deepest cs = some (co, l)) : l ≤ cs.length :=
  (deepest_sound t cs co l h).2.1

theorem deepest_ext (t1 t2 : Trie) (hpc : ∀ s, t1.pathCode s = t2.pathCode s)
    (cs : List Char) : t1.deepest cs = t2.deepest cs := by
  cases h1 : t1.deepest cs with
  | none =>
    cases h2 : t2.deepest cs with
    | none => rfl
    | some pr =>
      obtain ⟨co, l⟩ := pr
      obtain ⟨ha, hb, hc⟩ := deepest_sound t2 cs co l h2
      have hc1 : t1.pathCode (cs.take l) = some co := by rw [hpc]; exact hc
      obtain ⟨co', l', hd, _⟩ := deepest_complete t1 cs l co ha hb hc1
      rw [h1] at hd
      exact absurd hd (by simp)
  | some pr =>
    obtain ⟨co, l⟩ := pr
    obtain ⟨ha, hb, hc⟩ := deepest_sound t1 cs co l h1
    have hcc : t2.pathCode (cs.take l) = some co := by rw [← hpc]; exact hc
    obtain ⟨co2, l2, h2, hle⟩ := deepest_complete t2 cs l co ha hb hcc
    obtain ⟨ha2, hb2, hc2⟩ := deepest_sound t2 cs co2 l2 h2
    have hc1 : t1.pathCode (cs.take l2) = some co2 := by rw [hpc]; exact hc2
    obtain ⟨co3, l3, h3, hle3⟩ := deepest_complete t1 cs l2 co2 ha2 hb2 hc1
    rw [h1] at h3
    have hinj : co = co3 ∧ l = l3 := by simpa using h3
    have hll : l2 = l := by omega
    have hco2 : co2 = co := by
      rw [hll] at hc2
      have : some co2 = some co := hc2.symm.trans hcc
      exact Option.some.inj this
    rw [h2, hco2, hll]

/-! ## Lemmas: encoder and decoder -/

theorem encodeSteps_zero (root : Trie) (cs : List Char) : encodeSteps root 0 cs = [] := by
  cases cs <;> rfl

theorem encodeSteps_nil (root : Trie) (fuel : Nat) : encodeSteps root fuel [] = [] := by
  cases fuel <;> rfl

theorem encodeSteps_cons (root : Trie) (fuel : Nat) (c : Char) (rest : List Char) :
    encodeSteps root (fuel + 1) (c :: rest)
      = match root.deepest (c :: rest) with
        | some (co, l) => co :: encodeSteps root fuel (rest.drop (l - 1))
        | none => encodeSteps root fuel rest := rfl

theorem encodeSteps_fuel (root : Trie) (fuel1 fuel2 : Nat) (cs : List Char)
    (h1 : cs.length ≤ fuel1) (h2 : cs.length ≤ fuel2) :
    encodeSteps root fuel1 cs = encodeSteps root fuel2 cs := by
  induction fuel1 generalizing fuel2 cs with
  | zero =>
    have : cs = [] := List.eq_nil_of_length_eq_zero (Nat.le_zero.mp h1)
    subst this
    rw [encodeSteps_zero, encodeSteps_nil]
  | succ f ih =>
    cases cs with
    | nil => rw [encodeSteps_nil, encodeSteps_nil]
    | cons c rest =>
      obtain ⟨f2, rfl⟩ : ∃ g, fuel2 = g + 1 := ⟨fuel2 - 1, by simp at h2; omega⟩
      rw [encodeSteps_cons, encodeSteps_cons]
      cases hd : root.deepest (c :: rest) with
      | none =>
        simp only [hd]
        exact ih f2 rest (by simp at h1; omega) (by simp at h2; omega)
      | some pr =>
        obtain ⟨co, l⟩ := pr
        simp only [hd]
        congr 1
        exact ih f2 (rest.drop (l - 1))
          (by simp only [List.length_drop]; simp at h1; omega)
          (by simp only [List.length_drop]; simp at h2; omega)

theorem encodeSteps_ext (t1 t2 : Trie) (hpc : ∀ s, t1.pathCode s = t2.pathCode s)
    (fuel : Nat) (cs : List Char) :
    encodeSteps t1 fuel cs = encodeSteps t2 fuel cs := by
  induction fuel generalizing cs with
  | zero => rw [encodeSteps_zero, encodeSteps_zero]
  | succ f ih =>
    cases cs with
    | nil => rw [encodeSteps_nil, encodeSteps_nil]
    | cons c rest =>
      rw [encodeSteps_cons, encodeSteps_cons, ← deepest_ext t1 t2 hpc (c :: rest)]
      cases hd : t1.deepest (c :: rest) with
      | none =>
        simp only [hd]
        exact ih rest
      | some pr =>
        obtain ⟨co, l⟩ := pr
        simp only [hd]
        rw [ih]

theorem decode_nil (L : List (Frag × Token)) : decode L [] = [] := rfl

theorem decode_cons (L : List (Frag × Token)) (co : Token) (codes : List Token) :
    decode L (co :: codes)
      = ((reverseFind L co).getD ("[UNK]".toList)) ++ decode L codes := rfl

theorem reverseFind_mem (L : List (Frag × Token)) (co : Token) (f : Frag)
    (h : reverseFind L co = some f) : (f, co) ∈ L := by
  unfold reverseFind at h
  obtain ⟨p, hf, hfst⟩ := Option.map_eq_some'.mp h
  have hmem := List.mem_of_find?_eq_some hf
  have hpred := List.find?_some hf
  simp only [beq_iff_eq] at hpred
  have : p = (f, co) := Prod.ext hfst hpred
  exact this ▸ hmem

theorem reverseFind_isSome (L : List (Frag × Token)) (f : Frag) (co : Token)
    (h : (f, co) ∈ L) : (reverseFind L co).isSome := by
  unfold reverseFind
  have h2 : (List.find? (fun p => p.2 == co) L).isSome :=
    List.find?_isSome.mpr ⟨(f, co), h, by simp⟩
  cases hf : List.find? (fun p => p.2 == co) L
  · rw [hf] at h2
    simp at h2
  · simp [hf]

/-- Round trip of the greedy encoder against the decoder, for inputs all
of whose characters have single-character fragments in the vocabulary,
assuming distinct fragments and injective codes. -/
theorem decode_encodeSteps (L : List (Frag × Token))
    (hnd : (L.map Prod.fst).Nodup)
    (hinj : ∀ p ∈ L, ∀ q ∈ L, p.2 = q.2 → p.1 = q.1)
    (fuel : Nat) (cs : List Char)
    (hfuel : cs.length ≤ fuel)
    (hsingle : ∀ c ∈ cs, ∃ co, ([c], co) ∈ L) :
    decode L (encodeSteps (buildTrie L) fuel cs) = cs := by
  induction fuel generalizing cs with
  | zero =>
    have : cs = [] := List.eq_nil_of_length_eq_zero (Nat.le_zero.mp hfuel)
    subst this
    rfl
  | succ f ih =>
    cases cs with
    | nil => rfl
    | cons c rest =>
      obtain ⟨coc, hcoc⟩ := hsingle c (List.mem_cons_self c rest)
      have hget : (alGet? L [c]).isSome := alGet?_isSome_of_mem L [c] coc hcoc
      obtain ⟨coc2, hcoc2⟩ := Option.isSome_iff_exists.mp hget
      have hpc1 : (buildTrie L).pathCode ((c :: rest).take 1) = some coc2 := by
        rw [show (c :: rest).take 1 = [c] from rfl, pathCode_buildTrie L hnd]
        exact hcoc2
      obtain ⟨co, l, hd, hl1⟩ := deepest_complete (buildTrie L) (c :: rest) 1 coc2
        le_rfl (by simp) hpc1
      obtain ⟨hge1, hlen, hpc⟩ := deepest_sound (buildTrie L) (c :: rest) co l hd
      rw [encodeSteps_cons]
      simp only [hd]
      rw [decode_cons]
      rw [pathCode_buildTrie L hnd] at hpc
      have hmem : ((c :: rest).take l, co) ∈ L := alGet?_mem L _ co hpc
      have hrev : (reverseFind L co).isSome := reverseFind_isSome L _ co hmem
      obtain ⟨f0, hf0⟩ := Option.isSome_iff_exists.mp hrev
      have hf0mem : (f0, co) ∈ L := reverseFind_mem L co f0 hf0
      have hfrag : f0 = (c :: rest).take l :=
        hinj (f0, co) hf0mem ((c :: rest).take l, co) hmem rfl
      rw [hf0, Option.getD_some, hfrag]
      have hdrop : rest.drop (l - 1) = (c :: rest).drop l := by
        obtain ⟨l0, rfl⟩ : ∃ l0, l = l0 + 1 := ⟨l - 1, by omega⟩
        simp
      rw [hdrop]
      rw [ih ((c :: rest).drop l)
        (by simp only [List.length_drop]; simp at hfuel ⊢; omega)
        (fun c' hc' => hsingle c' (List.drop_subset _ _ hc'))]
      exact List.take_append_drop l (c :: rest)

/-- Round trip at the `encode_fast_opt` level. -/
theorem decode_encodeFastOpt (L : List (Frag × Token))
    (hnd : (L.map Prod.fst).Nodup)
    (hinj : ∀ p ∈ L, ∀ q ∈ L, p.2 = q.2 → p.1 = q.1)
    (x : List Char)
    (hsingle : ∀ c ∈ normalize x, ∃ co, ([c], co) ∈ L) :
    decode L (encodeFastOpt L x) = normalize x := by
  unfold encodeFastOpt
  exact decode_encodeSteps L hnd hinj (normalize x).length (normalize x) le_rfl hsingle

/-- Iteration-order independence of the encoder: any permutation of the
vocabulary entries (with distinct fragments) yields the same encoding. -/
theorem encodeFastOpt_perm (L1 L2 : List (Frag × Token)) (hperm : L1.Perm L2)
    (hnd : (L1.map Prod.fst).Nodup) (x : List Char) :
    encodeFastOpt L1 x = encodeFastOpt L2 x := by
  have hnd2 : (L2.map Prod.fst).Nodup := ((hperm.map Prod.fst).nodup_iff).mp hnd
  have hpc : ∀ s, (buildTrie L1).pathCode s = (buildTrie L2).pathCode s := by
    intro s
    rw [pathCode_buildTrie L1 hnd s, pathCode_buildTrie L2 hnd2 s]
    exact alGet?_perm L1 L2 hperm hnd s
  unfold encodeFastOpt
  exact encodeSteps_ext _ _ hpc _ _

/-! ## Lemmas: vocabulary bookkeeping during BPE training -/

theorem alInsert_keys {α β : Type} [BEq α] [LawfulBEq α] [DecidableEq α]
    (m : List (α × β)) (k : α) (v : β) :
    (alInsert m k v).map Prod.fst
      = if k ∈ m.map Prod.fst then m.map Prod.fst else m.map Prod.fst ++ [k] := by
  induction m with
  | nil => simp [alInsert]
  | cons p rest ih =>
    obtain ⟨k0, v0⟩ := p
    by_cases h : k0 = k
    · subst h
      simp [alInsert]
    · have he : alInsert ((k0, v0) :: rest) k v = (k0, v0) :: alInsert rest k v := by
        simp [alInsert, h]
      rw [he]
      simp only [List.map_cons, ih, List.mem_cons]
      by_cases hm : k ∈ rest.map Prod.fst
      · rw [if_pos hm, if_pos (Or.inr hm)]
      · rw [if_neg hm,
          if_neg (fun hor => Or.elim hor (fun he2 => h he2.symm) (fun hm2 => hm hm2))]
        rfl

theorem alInsert_nodupKeys {α β : Type} [BEq α] [LawfulBEq α] [DecidableEq α]
    (m : List (α × β)) (k : α) (v : β) (h : (m.map Prod.fst).Nodup) :
    ((alInsert m k v).map Prod.fst).Nodup := by
  rw [alInsert_keys]
  by_cases hm : k ∈ m.map Prod.fst
  · rw [if_pos hm]
    exact h
  · rw [if_neg hm]
    exact List.Nodup.append h (List.nodup_singleton k)
      (fun a ha hb => by simp at hb; exact hm (hb ▸ ha))

theorem alInsertIfNew_nodupKeys {α β : Type} [BEq α] [LawfulBEq α] [DecidableEq α]
    (m : List (α × β)) (k : α) (v : β) (h : (m.map Prod.fst).Nodup) :
    ((alInsertIfNew m k v).map Prod.fst).Nodup := by
  unfold alInsertIfNew
  by_cases hany : (m.any fun p => p.1 == k) = true
  · rw [if_pos hany]
    exact h
  · rw [if_neg hany]
    have hm : k ∉ m.map Prod.fst := by
      intro hmem
      obtain ⟨p, hp, hfst⟩ := List.mem_map.mp hmem
      exact hany (List.any_eq_true.mpr ⟨p, hp, by simp [hfst]⟩)
    rw [List.map_append]
    exact List.Nodup.append h (List.nodup_singleton k)
      (fun a ha hb => by simp at hb; exact hm (hb ▸ ha))

theorem alGet?_isSome_alInsert {α β : Type} [BEq α] [LawfulBEq α] [DecidableEq α]
    (m : List (α × β)) (k k' : α) (v : β) (h : (alGet? m k').isSome) :
    (alGet? (alInsert m k v) k').isSome := by
  rw [alGet?_alInsert]
  by_cases hk : k' = k <;> simp [hk, h]

theorem alGet?_isSome_alInsertIfNew {α β : Type} [BEq α] [LawfulBEq α] [DecidableEq α]
    (m : List (α × β)) (k k' : α) (v : β) (h : (alGet? m k').isSome) :
    (alGet? (alInsertIfNew m k v) k').isSome := by
  unfold alInsertIfNew
  by_cases hany : (m.any fun p => p.1 == k) = true
  · rw [if_pos hany]
    exact h
  · rw [if_neg hany, alGet?_append]
    obtain ⟨v', hv'⟩ := Option.isSome_iff_exists.mp h
    rw [hv']
    rfl

theorem alGet?_isSome_alInsertIfNew_self {α β : Type} [BEq α] [LawfulBEq α] [DecidableEq α]
    (m : List (α × β)) (k : α) (v : β) :
    (alGet? (alInsertIfNew m k v) k).isSome := by
  unfold alInsertIfNew
  by_cases hany : (m.any fun p => p.1 == k) = true
  · rw [if_pos hany]
    obtain ⟨p, hp, hpk⟩ := List.any_eq_true.mp hany
    simp only [beq_iff_eq] at hpk
    exact alGet?_isSome_of_mem m k p.2 (by rw [← hpk]; exact hp)
  · rw [if_neg hany, alGet?_append]
    cases hres : alGet? m k
    · show (alGet? [(k, v)] k).isSome
      rw [alGet?_cons, if_pos rfl]
      rfl
    · rfl

/-- Keys of the character-seeded vocabulary are distinct. -/
theorem seedVocab_nodupKeys (hashFn : Frag → Nat) (tbs : Nat) (cs : List Char)
    (init : List (Frag × Token)) (h : (init.map Prod.fst).Nodup) :
    (((cs.foldl (fun v c => alInsertIfNew v [c] (computeTokenCode hashFn [c] tbs))
      init)).map Prod.fst).Nodup := by
  induction cs generalizing init with
  | nil => exact h
  | cons c0 cs ih =>
    rw [List.foldl_cons]
    exact ih _ (alInsertIfNew_nodupKeys _ _ _ h)

/-- Every character of the stream ends up with its singleton fragment in
the seeded vocabulary. -/
theorem seedVocab_presence (hashFn : Frag → Nat) (tbs : Nat) (cs : List Char)
    (init : List (Frag × Token)) (c : Char)
    (h : c ∈ cs ∨ (alGet? init [c]).isSome) :
    (alGet? (cs.foldl (fun v c' => alInsertIfNew v [c'] (computeTokenCode hashFn [c'] tbs))
      init) [c]).isSome := by
  induction cs generalizing init with
  | nil =>
    rcases h with hmem | hsome
    · exact absurd hmem (List.not_mem_nil c)
    · exact hsome
  | cons c0 cs ih =>
    rw [List.foldl_cons]
    apply ih
    rcases h with hmem | hsome
    · rcases List.mem_cons.mp hmem with rfl | hmem2
      · exact Or.inr (alGet?_isSome_alInsertIfNew_self init [c] _)
      · exact Or.inl hmem2
    · exact Or.inr (alGet?_isSome_alInsertIfNew init _ [c] _ hsome)

theorem bpeLoop_succ (hashFn : Frag → Nat) (tbs vocabSize fuel : Nat) (st : BpeState) :
    bpeLoop hashFn tbs vocabSize (fuel + 1) st
      = if st.vocab.length < vocabSize then
          match bpeStep hashFn tbs st with
          | some st' => bpeLoop hashFn tbs vocabSize fuel st'
          | none => st
        else st := rfl

theorem bpeStep_vocab (hashFn : Frag → Nat) (tbs : Nat) (st st' : BpeState)
    (h : bpeStep hashFn tbs st = some st') :
    ∃ a b, st'.vocab = alInsert st.vocab (a ++ b) (computeTokenCode hashFn (a ++ b) tbs) := by
  unfold bpeStep at h
  split at h
  · exact absurd h (by simp)
  · rename_i a b hpick
    exact ⟨a, b, by rw [← Option.some.inj h]⟩

theorem bpeLoop_nodupKeys (hashFn : Frag → Nat) (tbs vocabSize fuel : Nat) (st : BpeState)
    (h : (st.vocab.map Prod.fst).Nodup) :
    (((bpeLoop hashFn tbs vocabSize fuel st).vocab).map Prod.fst).Nodup := by
  induction fuel generalizing st with
  | zero => exact h
  | succ f ih =>
    rw [bpeLoop_succ]
    by_cases hlt : st.vocab.length < vocabSize
    · rw [if_pos hlt]
      cases hstep : bpeStep hashFn tbs st with
      | none => exact h
      | some st2 =>
        apply ih
        obtain ⟨a, b, hvoc⟩ := bpeStep_vocab hashFn tbs st st2 hstep
        rw [hvoc]
        exact alInsert_nodupKeys _ _ _ h
    · rw [if_neg hlt]
      exact h

theorem bpeLoop_presence (hashFn : Frag → Nat) (tbs vocabSize fuel : Nat) (st : BpeState)
    (c : Char) (h : (alGet? st.vocab [c]).isSome) :
    (alGet? (bpeLoop hashFn tbs vocabSize fuel st).vocab [c]).isSome := by
  induction fuel generalizing st with
  | zero => exact h
  | succ f ih =>
    rw [bpeLoop_succ]
    by_cases hlt : st.vocab.length < vocabSize
    · rw [if_pos hlt]
      cases hstep : bpeStep hashFn tbs st with
      | none => exact h
      | some st2 =>
        apply ih
        obtain ⟨a, b, hvoc⟩ := bpeStep_vocab hashFn tbs st st2 hstep
        rw [hvoc]
        exact alGet?_isSome_alInsert _ _ _ _ h
    · rw [if_neg hlt]
      exact h

/-- The trained tokenizer's fragments are distinct (`HashMap` keys). -/
theorem tokenizerTrain_nodupKeys (hashFn : Frag → Nat) (tbs : Nat) (text : List Char)
    (vocabSize : Nat) :
    (((tokenizerTrain hashFn tbs text vocabSize).tokens).map Prod.fst).Nodup := by
  unfold tokenizerTrain
  exact bpeLoop_nodupKeys hashFn tbs vocabSize (normalize text).length _
    (seedVocab_nodupKeys hashFn tbs (normalize text) [] (by simp))

/-- Every character of the normalized training text keeps its singleton
fragment in the trained vocabulary (seeding inserts it; later merges
only add or overwrite fragments, never remove them). -/
theorem tokenizerTrain_presence (hashFn : Frag → Nat) (tbs : Nat) (text : List Char)
    (vocabSize : Nat) (c : Char) (hc : c ∈ normalize text) :
    (alGet? (tokenizerTrain hashFn tbs text vocabSize).tokens [c]).isSome := by
  unfold tokenizerTrain
  exact bpeLoop_presence hashFn tbs vocabSize (normalize text).length _ c
    (seedVocab_presence hashFn tbs (normalize text) [] c (Or.inl hc))

/-! ## Lemmas: well-formedness of the model distributions -/

theorem goodDist_of_sum_one (V : List Token) (d : List (Token × ℚ))
    (hk : distKeys d = V) (hnn : ∀ p ∈ d, 0 ≤ p.2) (hs : distSum d = 1) :
    goodDist V d :=
  ⟨hk, hnn, hs, by rw [hs]; norm_num, by rw [hs]; norm_num⟩

theorem qsum_map_div' {α : Type} (l : List α) (f : α → ℚ) (s : ℚ) :
    (l.map (fun x => f x / s)).sum = (l.map f).sum / s := by
  have h := qsum_map_div (l.map f) s
  rwa [List.map_map, Function.comp_def] at h

theorem qsum_map_pos {α : Type} (l : List α) (f : α → ℚ) (hl : l ≠ [])
    (hpos : ∀ x ∈ l, 0 < f x) : 0 < (l.map f).sum := by
  apply List.sum_pos
  · intro x hx
    obtain ⟨y, hy, rfl⟩ := List.mem_map.mp hx
    exact hpos y hy
  · simp [hl]

theorem goodDist_normalize (V : List Token) (f : Token → ℚ)
    (hnn : ∀ t ∈ V, 0 ≤ f t) (hpos : 0 < (V.map f).sum) :
    goodDist V (normalizeLikelihoods (V.map (fun t => (t, f t)))) := by
  apply goodDist_of_sum_one
  · rw [normalizeLikelihoods_keys, distKeys_map]
  · apply normalizeLikelihoods_nonneg
    intro p hp
    obtain ⟨t, ht, rfl⟩ := List.mem_map.mp hp
    exact hnn t ht
  · apply normalizeLikelihoods_sum
    rw [distSum_map]
    exact hpos

theorem goodDist_div_sum (V : List Token) (F : Token → ℚ) (hV : V ≠ [])
    (hF : ∀ t, 0 < F t) :
    goodDist V (V.map (fun t => (t, F t / (V.map F).sum))) := by
  have hS : 0 < (V.map F).sum := qsum_map_pos V F hV (fun x _ => hF x)
  apply goodDist_of_sum_one
  · exact distKeys_map V _
  · intro p hp
    obtain ⟨t, ht, rfl⟩ := List.mem_map.mp hp
    exact le_of_lt (div_pos (hF t) hS)
  · rw [distSum_map, qsum_map_div', div_self (ne_of_gt hS)]

/-- Universal property 1 for the uniform model. -/
theorem uniform_goodDist (V : List Token) (hV : V ≠ []) :
    goodDist V (uniformComputeLikelihoods V) := by
  have hlen : (0 : ℚ) < (V.length : ℚ) := by exact_mod_cast List.length_pos.mpr hV
  unfold uniformComputeLikelihoods
  apply goodDist_of_sum_one
  · exact distKeys_map V _
  · intro p hp
    obtain ⟨t, ht, rfl⟩ := List.mem_map.mp hp
    exact div_nonneg zero_le_one hlen.le
  · rw [distSum_map, qsum_map_const, mul_one_div, div_self (ne_of_gt hlen)]

/-- Universal property 1 for the unigram model (with its preconditions:
nonempty training stream, every vocabulary token seen in training). -/
theorem unigram_goodDist (training V : List Token) (hV : V ≠ [])
    (htr : 0 < training.length) (hcount : ∀ t ∈ V, 0 < training.count t) :
    ∃ d, unigramComputeLikelihoods training V = some d ∧ goodDist V d := by
  unfold unigramComputeLikelihoods
  rw [if_pos htr, if_pos (by
    rw [List.all_eq_true]
    intro t ht
    exact decide_eq_true (hcount t ht))]
  refine ⟨_, rfl, ?_⟩
  apply goodDist_normalize V (fun t => (training.count t : ℚ))
  · intro t ht
    positivity
  · apply qsum_map_pos V _ hV
    intro t ht
    exact_mod_cast hcount t ht

/-- Universal property 1 for the bigram model (with its precondition:
nonempty prefix); both the transition branch and the uniform fallback
yield a well-formed distribution. -/
theorem bigram_goodDist (training pre V : List Token) (hV : V ≠ []) (hpre : pre ≠ []) :
    ∃ d, bigramComputeLikelihoods training pre V = some d ∧ goodDist V d := by
  unfold bigramComputeLikelihoods
  obtain ⟨lastTok, hl⟩ := Option.isSome_iff_exists.mp
    (by rw [List.getLast?_isSome]; exact hpre)
  simp only [hl]
  by_cases hany : ((bigramPairs training).any (fun p => p.1 == lastTok)) = true
  · rw [if_pos hany]
    refine ⟨_, rfl, ?_⟩
    apply goodDist_normalize V
    · intro t ht
      positivity
    · apply qsum_map_pos V _ hV
      intro t ht
      positivity
  · rw [if_neg hany]
    refine ⟨_, rfl, ?_⟩
    show goodDist V (normalizeLikelihoods (V.map (fun t => (t, 1 / (V.length : ℚ)))))
    have hlen : (0 : ℚ) < (V.length : ℚ) := by exact_mod_cast List.length_pos.mpr hV
    apply goodDist_normalize V (fun _ => 1 / (V.length : ℚ))
    · intro t ht
      positivity
    · rw [qsum_map_const, mul_one_div, div_self (ne_of_gt hlen)]
      norm_num

/-- Universal property 1 for the ensemble model: with a positive softmax
kernel and non-negative regularization, the final renormalized
distribution is well formed. -/
theorem clm_goodDist {γ : Type} (compress : γ → List Nat → Nat) (rpow : ℚ → ℚ)
    (cdicts : List γ) (opts : TrainingOptions) (currentText V : List Token)
    (hV : V ≠ []) (hrpow : ∀ x, 0 < rpow x) (hreg : 0 ≤ opts.regularization) :
    goodDist V (clmComputeLikelihoods compress rpow cdicts opts currentText V) := by
  have hlen : (0 : ℚ) < (V.length : ℚ) := by exact_mod_cast List.length_pos.mpr hV
  have e : clmComputeLikelihoods compress rpow cdicts opts currentText V
      = V.map (fun t =>
          (t, (fun u => rpow (-(clmSpecScore compress cdicts
                (currentText.drop
                  (currentText.length - min currentText.length opts.context_window)) u))
              / (V.map (fun u => rpow (-(clmSpecScore compress cdicts
                (currentText.drop
                  (currentText.length - min currentText.length opts.context_window)) u)))).sum
            + opts.regularization / (V.length : ℚ)) t
            / (V.map (fun u => rpow (-(clmSpecScore compress cdicts
                (currentText.drop
                  (currentText.length - min currentText.length opts.context_window)) u))
              / (V.map (fun u2 => rpow (-(clmSpecScore compress cdicts
                (currentText.drop
                  (currentText.length - min currentText.length opts.context_window)) u2)))).sum
            + opts.regularization / (V.length : ℚ))).sum)) := by
    rw [clm_likelihoods_repr]
    rfl
  rw [e]
  apply goodDist_div_sum V _ hV
  intro t
  have hraw : 0 < (V.map (fun u => rpow (-(clmSpecScore compress cdicts
      (currentText.drop
        (currentText.length - min currentText.length opts.context_window)) u)))).sum :=
    qsum_map_pos V _ hV (fun x _ => hrpow _)
  have h1 : 0 < rpow (-(clmSpecScore compress cdicts
      (currentText.drop
        (currentText.length - min currentText.length opts.context_window)) t)) := hrpow _
  have h2 : 0 ≤ opts.regularization / (V.length : ℚ) := div_nonneg hreg hlen.le
  exact add_pos_of_pos_of_nonneg (div_pos h1 hraw) h2

/-- The evaluator's distribution check, as a biconditional: in the exact
rational model it fires exactly on a negative value. -/
theorem checkDistributionPanics_iff (l : List (Token × ℚ)) :
    checkDistributionPanics l = true ↔ ∃ p ∈ l, p.2 < 0 := by
  simp [checkDistributionPanics, List.any_eq_true]

/-! ## Lemmas: trainer byte accounting -/

theorem flatten_map_flatten {α : Type} (l : List (List (List α))) :
    (l.map List.flatten).flatten = l.flatten.flatten := by
  induction l with
  | nil => rfl
  | cons a rest ih => simp [ih]

theorem sum_map_length {α : Type} (l : List (List α)) :
    (l.map List.length).sum = l.flatten.length :=
  (List.length_flatten l).symm

/-! ## Claim theorems -/

/-- C1: for an ensemble with prepared dictionaries `cdicts`, prefix
`currentText` and vocabulary `allTokens` (distinct, as `HashMap` keys
are), `ClmModel::compute_likelihoods` returns exactly, for every
candidate `t`: `ctx` the last `min(|P|, context_window)` tokens of the
prefix; `score[t] = (Σ_D (len(D, ctx++t) − len(D, ctx))) / E` with `E`
the number of dictionaries; `raw[t] = basis^(−score[t])` (the
exponential is the abstract positive kernel `rpow`);
`p[t] = raw[t]/Σraw`; `p'[t] = p[t] + regularization/|V|`; result
`p'[t]/Σp'`.  `clmSpecLikelihood` is that formula verbatim. -/
theorem c1_compute_likelihoods {γ : Type} (compress : γ → List Nat → Nat)
    (rpow : ℚ → ℚ) (cdicts : List γ) (opts : TrainingOptions)
    (currentText allTokens : List Token) (hnd : allTokens.Nodup) :
    clmComputeLikelihoods compress rpow cdicts opts currentText allTokens
      = allTokens.map (fun t =>
          (t, clmSpecLikelihood compress rpow cdicts opts currentText allTokens t)) :=
  clm_likelihoods_repr compress rpow cdicts opts currentText allTokens

theorem c1_compute_likelihoods_witness :
    ([[0], [1]] : List Token).Nodup
    ∧ clmComputeLikelihoods (fun (_ : Unit) l => l.length) (fun _ => 1) [()]
          ⟨1, 1, 1, 32, 0, 0⟩ [[1]] [[0], [1]]
        = ([[0], [1]] : List Token).map (fun t =>
            (t, clmSpecLikelihood (fun (_ : Unit) l => l.length) (fun _ => 1) [()]
              ⟨1, 1, 1, 32, 0, 0⟩ [[1]] [[0], [1]] t)) :=
  ⟨by decide,
   c1_compute_likelihoods (fun (_ : Unit) l => l.length) (fun _ => 1) [()]
     ⟨1, 1, 1, 32, 0, 0⟩ [[1]] [[0], [1]] (by decide)⟩

/-- C3: for each of the four models, under the model's preconditions
(nonempty vocabulary of distinct tokens; unigram: nonempty training with
every vocabulary token seen; bigram: nonempty prefix; ensemble: positive
softmax kernel and non-negative regularization), the returned
distribution has domain exactly `V`, non-negative values (finiteness is
automatic over `ℚ`) and total mass exactly 1, hence within
`[1 − 10⁻³, 1 + 10⁻³]`; and the evaluator's `check_distribution` panics
exactly when some value is negative (the non-finite float cases cannot
arise in the exact model). -/
theorem c3_distribution_invariants {γ : Type}
    (V training currentText pre : List Token)
    (compress : γ → List Nat → Nat) (rpow : ℚ → ℚ) (cdicts : List γ)
    (opts : TrainingOptions) (l : List (Token × ℚ))
    (hV : V ≠ []) (hnd : V.Nodup)
    (htr : 0 < training.length)
    (hcount : ∀ t ∈ V, 0 < training.count t)
    (hpre : pre ≠ [])
    (hrpow : ∀ x, 0 < rpow x)
    (hreg : 0 ≤ opts.regularization) :
    goodDist V (uniformComputeLikelihoods V)
    ∧ (∃ d, unigramComputeLikelihoods training V = some d ∧ goodDist V d)
    ∧ (∃ d, bigramComputeLikelihoods training pre V = some d ∧ goodDist V d)
    ∧ goodDist V (clmComputeLikelihoods compress rpow cdicts opts currentText V)
    ∧ (checkDistributionPanics l = true ↔ ∃ p ∈ l, p.2 < 0) :=
  ⟨uniform_goodDist V hV,
   unigram_goodDist training V hV htr hcount,
   bigram_goodDist training pre V hV hpre,
   clm_goodDist compress rpow cdicts opts currentText V hV hrpow hreg,
   checkDistributionPanics_iff l⟩

theorem c3_distribution_invariants_witness :
    (([[0], [1]] : List Token) ≠ []
      ∧ ([[0], [1]] : List Token).Nodup
      ∧ 0 < ([[0], [1]] : List Token).length
      ∧ (∀ t ∈ ([[0], [1]] : List Token), 0 < ([[0], [1]] : List Token).count t)
      ∧ ([[0]] : List Token) ≠ []
      ∧ (∀ x : ℚ, 0 < (fun _ : ℚ => (1 : ℚ)) x)
      ∧ (0 : ℚ) ≤ (⟨1, 1, 1, 32, 0, 0⟩ : TrainingOptions).regularization)
    ∧ goodDist [[0], [1]] (uniformComputeLikelihoods [[0], [1]]) :=
  ⟨⟨by decide, by decide, by decide, by decide, by decide,
    fun x => one_pos, le_refl 0⟩,
   (c3_distribution_invariants (γ := Unit) [[0], [1]] [[0], [1]] [] [[0]]
      (fun _ l => l.length) (fun _ => 1) [()] ⟨1, 1, 1, 32, 0, 0⟩ []
      (by decide) (by decide) (by decide) (by decide) (by decide)
      (fun x => one_pos) (le_refl 0)).1⟩

/-- C10: `BigramModel::compute_likelihoods` panics on an empty prefix
for every vocabulary (the `.last().unwrap()` on the prefix), although
the uniform fallback would be well defined there; with a nonempty prefix
whose last token has recorded transitions it returns a distribution. -/
theorem c10_bigram_last_unwrap (training pre V V2 : List Token) (lt : Token)
    (hlast : pre.getLast? = some lt)
    (htrans : lt ∈ (bigramPairs training).map Prod.fst) :
    bigramComputeLikelihoods training [] V2 = none
    ∧ (bigramComputeLikelihoods training pre V).isSome := by
  constructor
  · rfl
  · unfold bigramComputeLikelihoods
    simp only [hlast]
    obtain ⟨p, hp, hfst⟩ := List.mem_map.mp htrans
    rw [if_pos (List.any_eq_true.mpr ⟨p, hp, by simp [hfst]⟩)]
    rfl

theorem c10_bigram_last_unwrap_witness :
    (([[0]] : List Token).getLast? = some [0]
      ∧ ([0] : Token) ∈ ((bigramPairs [[0], [1]]).map Prod.fst))
    ∧ (bigramComputeLikelihoods [[0], [1]] [[0]] [[0], [1]]).isSome :=
  ⟨⟨by decide, by decide⟩,
   (c10_bigram_last_unwrap [[0], [1]] [[0]] [[0], [1]] [] [0]
      (by decide) (by decide)).2⟩

/-- C2 fails as stated: on the 33-token stream `[[0], …, [32]]` the single
scored position is 32, but the prefix handed to the model is
`tokens[0..31]` — the first 31 tokens — not the 32 tokens strictly
before position 32 (`tokens[0..(pos - 1)]` in the source drops
`T[p−1]`). -/
theorem c2_evaluator_positions_cex :
    ¬ (evaluateCalls ((List.range 33).map (fun i => [i]))
        = [(((List.range 33).map (fun i => ([i] : Token))).take 32,
            ((List.range 33).map (fun i => ([i] : Token))).getD 32 [])]) := by
  decide

/-- C2 (amended): for every test encoding `T` with `|T| > 32` the
evaluator scores exactly the positions `p ∈ [32, |T|)` (so positions
0..31 are never scored); at scored position `p = 32 + i` it hands the
model the prefix `T[0..p−2]` — the first `p − 1` tokens, one short of
all tokens before `p` — takes `truth = T[p]`, and records the
probability the returned distribution assigns to `truth`. -/
theorem c2_evaluator_positions (model : List Token → List (Token × ℚ)) (T : List Token)
    (hlen : 32 < T.length) :
    (∀ p, p ∈ evaluatePositions T ↔ 32 ≤ p ∧ p < T.length)
    ∧ (evaluateCalls T).length = T.length - 32
    ∧ (∀ i, ∀ h : i < (evaluateCalls T).length,
        (evaluateCalls T).get ⟨i, h⟩ = (T.take (31 + i), T.getD (32 + i) []))
    ∧ (∀ i, ∀ h : i < (evaluateRecorded model T).length,
        (evaluateRecorded model T).get ⟨i, h⟩
          = alGet? (model (T.take (31 + i))) (T.getD (32 + i) [])) := by
  refine ⟨?_, ?_, ?_, ?_⟩
  · intro p
    rw [evaluatePositions, List.mem_range']
    constructor
    · rintro ⟨i, hi, rfl⟩
      omega
    · rintro ⟨h1, h2⟩
      exact ⟨p - 32, by omega, by omega⟩
  · simp [evaluateCalls, evaluatePositions]
  · intro i h
    simp only [evaluateCalls, evaluatePositions, List.get_eq_getElem, List.getElem_map,
      List.getElem_range']
    have e1 : 32 + 1 * i - 1 = 31 + i := by omega
    have e2 : 32 + 1 * i = 32 + i := by omega
    rw [e1, e2]
  · intro i h
    simp only [evaluateRecorded, evaluateCalls, evaluatePositions, List.get_eq_getElem,
      List.getElem_map, List.getElem_range']
    have e1 : 32 + 1 * i - 1 = 31 + i := by omega
    have e2 : 32 + 1 * i = 32 + i := by omega
    rw [e1, e2]

theorem c2_evaluator_positions_witness :
    32 < ((List.range 33).map (fun i => ([i] : Token))).length
    ∧ (evaluateCalls ((List.range 33).map (fun i => ([i] : Token)))).length
        = ((List.range 33).map (fun i => ([i] : Token))).length - 32 :=
  ⟨by decide,
   (c2_evaluator_positions (fun _ => []) ((List.range 33).map (fun i => ([i] : Token)))
      (by decide)).2.1⟩

/-- C4 fails as stated: training on 6 tokens with `ensemble_size = 4`
produces shards of `⌈6/4⌉ = 2` tokens, hence `⌈6/2⌉ = 3` shards and 3
dictionaries, not 4. -/
theorem c4_shard_count_cex :
    ¬ ((clmTrain (fun _ => (0 : Nat)) (fun d => d)
        [[0], [1], [2], [3], [4], [5]] ⟨4, 1, 1, 32, 0, 0⟩).1.length = 4) := by
  decide

/-- C4 (amended): for a nonempty token stream of length `N` and
`ensemble_size = E ≥ 1`, `ClmModel::train` partitions the stream into
contiguous shards of `⌈N/E⌉` tokens (final shard possibly shorter); the
number of shards is `⌈N/⌈N/E⌉⌉`, which is at most `E` but can be
smaller; one dictionary is trained per shard in shard order; prepared
dictionaries mirror the shard dictionaries one-for-one, so the two
counts always agree. -/
theorem c4_clm_train {δ γ : Type} (trainDict : List Token → δ) (createCDict : δ → γ)
    (tokens : List Token) (opts : TrainingOptions)
    (hN : tokens ≠ []) (hE : 1 ≤ opts.ensemble_size) :
    ((clmShards tokens opts.ensemble_size).flatten = tokens)
    ∧ (clmShards tokens opts.ensemble_size).length
        = natCeilDiv tokens.length (natCeilDiv tokens.length opts.ensemble_size)
    ∧ (clmShards tokens opts.ensemble_size).length ≤ opts.ensemble_size
    ∧ (∀ c ∈ (clmShards tokens opts.ensemble_size).dropLast,
        c.length = natCeilDiv tokens.length opts.ensemble_size)
    ∧ (∀ c ∈ clmShards tokens opts.ensemble_size,
        c.length ≤ natCeilDiv tokens.length opts.ensemble_size ∧ c ≠ [])
    ∧ (clmTrain trainDict createCDict tokens opts).1
        = (clmShards tokens opts.ensemble_size).map trainDict
    ∧ (clmTrain trainDict createCDict tokens opts).2
        = ((clmShards tokens opts.ensemble_size).map trainDict).map createCDict
    ∧ (clmTrain trainDict createCDict tokens opts).1.length
        = (clmTrain trainDict createCDict tokens opts).2.length := by
  have hNpos : 0 < tokens.length := List.length_pos.mpr hN
  have hs : 0 < natCeilDiv tokens.length opts.ensemble_size := by
    unfold natCeilDiv
    exact Nat.div_pos (by omega) (by omega)
  refine ⟨chunksOf_flatten _ _ hs, chunksOf_length _ _ hs, ?_,
    chunksOf_dropLast_length _ _ hs, chunksOf_mem_length _ _ hs, rfl, rfl, ?_⟩
  · show (chunksOf (natCeilDiv tokens.length opts.ensemble_size) tokens).length
      ≤ opts.ensemble_size
    rw [chunksOf_length _ _ hs]
    have key : tokens.length
        ≤ opts.ensemble_size * natCeilDiv tokens.length opts.ensemble_size := by
      have h := le_smul_ceilDiv (α := ℕ) (a := opts.ensemble_size)
        (b := tokens.length) (by omega)
      simpa [smul_eq_mul, Nat.ceilDiv_eq_add_pred_div, natCeilDiv] using h
    show tokens.length ⌈/⌉ natCeilDiv tokens.length opts.ensemble_size
      ≤ opts.ensemble_size
    rw [ceilDiv_le_iff_le_mul hs, mul_comm]
    exact key
  · simp [clmTrain]

theorem c4_clm_train_witness :
    (([[0], [1], [2]] : List Token) ≠ []
      ∧ 1 ≤ (⟨2, 1, 1, 32, 0, 0⟩ : TrainingOptions).ensemble_size)
    ∧ (clmShards [[0], [1], [2]] 2).flatten = [[0], [1], [2]] :=
  ⟨⟨by decide, by decide⟩,
   (c4_clm_train (fun _ => (0 : Nat)) (fun d => d) [[0], [1], [2]]
      ⟨2, 1, 1, 32, 0, 0⟩ (by decide) (by decide)).1⟩

/-- C5: for a trained tokenizer and every text over the normalized
alphabet each of whose characters occurs in the (normalized) training
data, decoding the encoding gives back exactly `normalize x`, provided
the hash-derived codes do not collide on the trained vocabulary (the
spec accepts collision as un-defended noise, and decoding is only
determined "up to fragments present in the vocabulary" without it); and
encoding is deterministic: it does not depend on the vocabulary
`HashMap`'s iteration order (any permutation of the entries encodes
identically). -/
theorem c5_roundtrip (hashFn : Frag → Nat) (tbs vocabSize : Nat)
    (trainText x : List Char) (L2 : List (Frag × Token))
    (hx : ∀ c ∈ x, allowedChar c = true)
    (hs : ∀ c ∈ x, c ∈ normalize trainText)
    (hinj : ∀ p ∈ (tokenizerTrain hashFn tbs trainText vocabSize).tokens,
        ∀ q ∈ (tokenizerTrain hashFn tbs trainText vocabSize).tokens,
          p.2 = q.2 → p.1 = q.1)
    (hperm : L2.Perm (tokenizerTrain hashFn tbs trainText vocabSize).tokens) :
    decode (tokenizerTrain hashFn tbs trainText vocabSize).tokens
        (encodeFastOpt (tokenizerTrain hashFn tbs trainText vocabSize).tokens x)
      = normalize x
    ∧ encodeFastOpt L2 x
      = encodeFastOpt (tokenizerTrain hashFn tbs trainText vocabSize).tokens x := by
  have hnd := tokenizerTrain_nodupKeys hashFn tbs trainText vocabSize
  constructor
  · apply decode_encodeFastOpt _ hnd hinj
    intro c hc
    have hc2 : c ∈ x := List.mem_of_mem_filter hc
    have hsome := tokenizerTrain_presence hashFn tbs trainText vocabSize c (hs c hc2)
    obtain ⟨co, hco⟩ := Option.isSome_iff_exists.mp hsome
    exact ⟨co, alGet?_mem _ _ _ hco⟩
  · exact encodeFastOpt_perm L2 _ hperm (((hperm.map Prod.fst).nodup_iff).mpr hnd) x

theorem c5_roundtrip_witness :
    ((∀ c ∈ "ab".toList, allowedChar c = true)
      ∧ (∀ c ∈ "ab".toList, c ∈ normalize ("ab".toList)))
    ∧ decode (tokenizerTrain (fun f => if f = ['a'] then 1 else 2) 2
          ("ab".toList) 2).tokens
        (encodeFastOpt (tokenizerTrain (fun f => if f = ['a'] then 1 else 2)
          2 ("ab".toList) 2).tokens ("ab".toList))
      = normalize ("ab".toList) :=
  ⟨⟨by decide, by decide⟩,
   (c5_roundtrip (fun f => if f = ['a'] then 1 else 2) 2 2
      ("ab".toList) ("ab".toList)
      ((tokenizerTrain (fun f => if f = ['a'] then 1 else 2) 2
        ("ab".toList) 2).tokens.reverse)
      (by decide) (by decide) (by decide)
      ((tokenizerTrain (fun f => if f = ['a'] then 1 else 2) 2
        ("ab".toList) 2).tokens.reverse_perm)).1⟩

/-- C6: with the vocabulary `{"a", "b", "ab"}` (arbitrary codes), the
greedy encoder emits exactly `[code "ab"]` on `"ab"` and
`[code "a", code "ab"]` on `"aab"`; and the matcher never consumes more
characters than remain in the input — the embedded reading of "never
reads a character at or past the end of input" (list indexing in the
model is total by construction; the match length bound is the
non-trivial residue of the source's `j < n` loop guard). -/
theorem c6_greedy_longest_match (ca cb cab : Token) :
    encodeFastOpt [(['a'], ca), (['b'], cb), (['a', 'b'], cab)] ['a', 'b'] = [cab]
    ∧ encodeFastOpt [(['a'], ca), (['b'], cb), (['a', 'b'], cab)] ['a', 'a', 'b']
        = [ca, cab]
    ∧ ∀ cs : List Char,
        ((buildTrie [(['a'], ca), (['b'], cb), (['a', 'b'], cab)]).deepest cs).elim True
          (fun pr => pr.2 ≤ cs.length) := by
  refine ⟨rfl, rfl, ?_⟩
  intro cs
  cases hd : (buildTrie [(['a'], ca), (['b'], cb), (['a', 'b'], cab)]).deepest cs with
  | none => trivial
  | some pr =>
    obtain ⟨co, l⟩ := pr
    exact deepest_le _ cs co l hd

/-- C7: training the tokenizer with `token_byte_size = 2` and
`vocab_size = 4` on `"ababab"` yields the fragments
`{"a", "b", "ab", "abab"}` exactly (listed in creation order: the two
seed characters, then the merges `a+b` and `ab+ab`), and every token
code has byte length exactly 2, for any 64-bit hash function. -/
theorem c7_tokenizer_training (hashFn : Frag → Nat) :
    ((tokenizerTrain hashFn 2 ("ababab".toList) 4).tokens.map Prod.fst)
        = [['a'], ['b'], ['a', 'b'], ['a', 'b', 'a', 'b']]
    ∧ ∀ p ∈ (tokenizerTrain hashFn 2 ("ababab".toList) 4).tokens, p.2.length = 2 := by
  constructor
  · rfl
  · have h : (tokenizerTrain hashFn 2 ("ababab".toList) 4).tokens
        = [(['a'], computeTokenCode hashFn ['a'] 2),
           (['b'], computeTokenCode hashFn ['b'] 2),
           (['a', 'b'], computeTokenCode hashFn ['a', 'b'] 2),
           (['a', 'b', 'a', 'b'], computeTokenCode hashFn ['a', 'b', 'a', 'b'] 2)] := rfl
    rw [h]
    intro p hp
    simp only [List.mem_cons, List.not_mem_nil, or_false] at hp
    rcases hp with h1 | h1 | h1 | h1 <;> subst h1 <;> simp [computeTokenCode]

/-- C8: for `n ≥ 2` recorded likelihoods, `calculate_model_stats`
returns: the mean of the likelihoods; the cross-entropy mean
`H̄ = mean(−ln ℓᵢ)`; a Bessel-corrected variance (divide by `n − 1`,
stated here with rational subtraction, which the `usize` subtraction of
the source matches for `n ≥ 1`); stderr `= √variance / √n`; perplexity
`= exp H̄`; perplexity stderr `= perplexity · stderr`;
`ppt = perplexity / |V|` and `ppt_stderr = perplexity_stderr / |V|`.
The transcendentals are the abstract parameters `lnf`, `sqrtf`,
`expf`. -/
theorem c8_model_stats (lnf sqrtf expf : ℚ → ℚ) (likelihoods : List ℚ)
    (allTokens : List Token) (hn : 2 ≤ likelihoods.length) :
    let n : ℚ := (likelihoods.length : ℚ)
    let ces := likelihoods.map (fun x => -(lnf x))
    let ceMean := ces.sum / n
    let variance := (ces.map (fun x => (x - ceMean) ^ 2)).sum / (n - 1)
    let stderr := sqrtf variance / sqrtf n
    let stats := calculateModelStats lnf sqrtf expf likelihoods allTokens
    stats.average_likelihood = likelihoods.sum / n
    ∧ stats.cross_entropy = ceMean
    ∧ stats.perplexity = expf ceMean
    ∧ stats.perplexity_stderr = expf ceMean * stderr
    ∧ stats.ppt = stats.perplexity / (allTokens.length : ℚ)
    ∧ stats.ppt_stderr = stats.perplexity_stderr / (allTokens.length : ℚ) := by
  have hlen : 1 ≤ likelihoods.length := by omega
  simp only [calculateModelStats, List.length_map]
  refine ⟨⟨⟩, ⟨⟩, ⟨⟩, ?_, ⟨⟩, ⟨⟩⟩
  rw [Nat.cast_sub hlen, Nat.cast_one]

theorem c8_model_stats_witness :
    2 ≤ ([1, 1] : List ℚ).length
    ∧ (calculateModelStats (fun x => x) (fun x => x) (fun x => x) [1, 1]
        [[0]]).average_likelihood
      = ([1, 1] : List ℚ).sum / (([1, 1] : List ℚ).length : ℚ) :=
  ⟨by norm_num,
   (c8_model_stats (fun x => x) (fun x => x) (fun x => x) [1, 1] [[0]]
      (by norm_num)).1⟩

/-- C9: the dictionary trainer fails exactly on an empty shard or on
fewer than 5 sub-chunks (`⌈|shard|/training_chunk_size⌉ < 5`); on
success it hands the primitive sub-chunk byte lengths summing exactly to
the concatenated length, the concatenation of all token codes of the
shard, and an output buffer of `max(256, ⌊pct · |bytes|⌋)` — always at
least 256 bytes.  `0 < training_chunk_size` is a precondition of the
Rust `chunks` API itself (it panics on 0 independently of this
function's own failure cases). -/
theorem c9_trainer (opts : TrainingOptions) (shard : List Token)
    (hk : 0 < opts.training_chunk_size) :
    (trainModelCall opts shard = none
      ↔ shard = [] ∨ natCeilDiv shard.length opts.training_chunk_size < 5)
    ∧ (∀ tc, trainModelCall opts shard = some tc →
        tc.sizes.sum = tc.rawData.length
        ∧ tc.rawData = shard.flatten
        ∧ tc.bufferSize
            = max (Int.toNat ⌊(tc.rawData.length : ℚ) * opts.dictionary_size_percentage⌋) 256
        ∧ 256 ≤ tc.bufferSize) := by
  by_cases hempty : shard = []
  · subst hempty
    constructor
    · simp [trainModelCall]
    · intro tc htc
      simp [trainModelCall] at htc
  · have hne : shard.isEmpty = false := by
      simp [List.isEmpty_iff, hempty]
    have hchunks : ((chunksOf opts.training_chunk_size shard).map List.flatten).length
        = natCeilDiv shard.length opts.training_chunk_size := by
      rw [List.length_map, chunksOf_length _ _ hk]
    constructor
    · simp only [trainModelCall, hne, Bool.false_eq_true, if_false, List.length_map,
        hchunks]
      by_cases h5 : natCeilDiv shard.length opts.training_chunk_size < 5
      · simp [h5]
      · simp [h5, hempty]
    · intro tc htc
      simp only [trainModelCall, hne, Bool.false_eq_true, if_false, List.length_map,
        hchunks] at htc
      by_cases h5 : natCeilDiv shard.length opts.training_chunk_size < 5
      · simp [h5] at htc
      · simp only [h5, if_false] at htc
        obtain rfl := (Option.some.inj htc).symm
        refine ⟨?_, ?_, rfl, le_max_right _ _⟩
        · show (((chunksOf opts.training_chunk_size shard).map List.flatten).map
              List.length).sum = _
          rw [sum_map_length]
        · show ((chunksOf opts.training_chunk_size shard).map List.flatten).flatten
            = shard.flatten
          rw [flatten_map_flatten, chunksOf_flatten _ _ hk]

theorem c9_trainer_witness :
    0 < (⟨1, 1, 1, 32, 0, 0⟩ : TrainingOptions).training_chunk_size
    ∧ (trainModelCall ⟨1, 1, 1, 32, 0, 0⟩ ([] : List Token) = none
      ↔ ([] : List Token) = [] ∨ natCeilDiv ([] : List Token).length 1 < 5) :=
  ⟨by norm_num,
   (c9_trainer ⟨1, 1, 1, 32, 0, 0⟩ [] (by norm_num)).1⟩

end ChatClm
